import Mathlib

/-!
# The bit-packed segmented count array of meryl

A shallow embedding of `src/meryl/merylCountArray.H`: the append writer `add`,
the random reader `get`, and the memory estimator `usedSize` /
`usedSizeDelta`, together with the two member functions the header only
declares (`initialize`, `addSegment`), which are modelled from the
specification.

Conventions of the embedding.

* Machine integers are natural numbers.  The operations whose result depends on
  the 64-bit (or 32-bit) word size are reduced explicitly: the cursor update
  `_nBits += _width`, the product `kk * _width` of the reader, every left shift
  of a 64-bit word, the unsigned subtractions that compute shift amounts and
  mask widths, and the unsigned subtraction of `usedSizeDelta`.  The 32-bit
  locals `word`, `wordBgn`, `wordEnd` and the segment index handed to
  `addSegment` stay below `2^32` as long as `_segSize` and `_width` do and fewer
  than `2^32` segments exist; they are not reduced.
* The estimator comes twice.  `usedSize64` reduces every sum and every product
  modulo `2^64`, as the C++ does on `uint64`: the product
  `pagesUsed * _bitsPerPage` wraps before the division by 8.  `usedSize` is the
  same computation in the naturals.  The two agree in every state whose
  estimate fits 64 bits (`fits64`, `usedSize64_eq`).  The properties about the
  value and the ordering of the estimate are stated for `usedSize64`;
  `usedSizeDelta` calls `usedSize`, and its trigger sum is carried out in the
  naturals.
* Functions return `Option`; `none` stands for behaviour the C++ program does
  not define (an access outside an allocated buffer, a shift by 64 or more, a
  division by zero) or for a failed `assert`.
* `_segments` is the array of `_segAlloc` buffer pointers: a list whose entry
  is `none` for a null pointer and `some buf` for a buffer of 64-bit words.
* The fields `_prefix`, `_suffix`, `_counts` and `_nKmers` are not touched by
  the functions embedded here and are left out.
-/

namespace Meryl

/-- Sizes fixed by the compiler and the operating system: `sizeof(uint64 **)`,
`sizeof(merylCountArray)` and the number of bits in one memory page. -/
structure Machine where
  ptrBytes : Nat
  objBytes : Nat
  pageBits : Nat
deriving Repr, DecidableEq

/-- The data members of `merylCountArray` used by the writer, the reader and the
estimator.  `segLog` is a ghost field: the arguments of the `addSegment` calls made
so far, in call order; no function reads it. -/
structure merylCountArray where
  _width : Nat
  _bitsPerPage : Nat
  _nReAlloc : Nat
  _segSize : Nat
  _segAlloc : Nat
  _segments : List (Option (List Nat))
  _nBits : Nat
  _nBitsTrigger : Nat
  _nBitsOldSize : Nat
  segLog : List Nat
deriving Repr, DecidableEq

/-- Left shift of a `uint64`: the bits shifted past bit 63 are lost; a shift amount
of 64 or more is undefined. -/
def shl64 (a k : Nat) : Option Nat :=
  if k < 64 then some ((a <<< k) % 2 ^ 64) else none

/-- Right shift of a `uint64`; a shift amount of 64 or more is undefined. -/
def shr64 (a k : Nat) : Option Nat :=
  if k < 64 then some (a >>> k) else none

/-- Subtraction of two `uint32`, wrapping modulo `2^32`. -/
def sub32 (a b : Nat) : Nat :=
  (a % 2 ^ 32 + (2 ^ 32 - b % 2 ^ 32)) % 2 ^ 32

/-- Subtraction of two `uint64`, wrapping modulo `2^64`. -/
def sub64 (a b : Nat) : Nat :=
  (a % 2 ^ 64 + (2 ^ 64 - b % 2 ^ 64)) % 2 ^ 64

/-- Modelled from the spec: the macro `uint64MASK` of `bits.H`, a header that
`merylCountArray.H` includes; the reader uses it to mask "the extracted bits to exactly
`W` bits", so `uint64MASK n` is the word whose `n` low bits are set. -/
def uint64MASK (n : Nat) : Nat :=
  2 ^ n - 1

/-- The read `_segments[seg][word]`. -/
def readWord (segs : List (Option (List Nat))) (seg word : Nat) : Option Nat :=
  match segs[seg]? with
  | some (some buf) => buf[word]?
  | _ => none

/-- The store `_segments[seg][word] = val`. -/
def writeWord (segs : List (Option (List Nat))) (seg word val : Nat) :
    Option (List (Option (List Nat))) :=
  match segs[seg]? with
  | some (some buf) =>
    if word < buf.length then some (segs.set seg (some (buf.set word val))) else none
  | _ => none

/-- Modelled from the spec: `addSegment`, which the header declares and another file
defines.  It "grows the index-of-segments structure if segIndex exceeds current
capacity, then allocates and zero-fills a new segSize-bit buffer at segIndex".  The
index grows to hold exactly `seg + 1` pointers, and each growth counts once in the
re-allocation counter that `usedSize` reads. -/
def addSegment (s : merylCountArray) (seg : Nat) : merylCountArray :=
  let s1 : merylCountArray :=
    if s._segAlloc ≤ seg then
      { s with
        _segments := s._segments ++ List.replicate (seg + 1 - s._segments.length) none
        _segAlloc := seg + 1
        _nReAlloc := s._nReAlloc + 1 }
    else s
  { s1 with
    _segments := s1._segments.set seg (some (List.replicate (s1._segSize / 64) 0))
    segLog := s1.segLog ++ [seg] }

/-- The member function `usedSize`, with its sums and products taken in the naturals;
`usedSize64` below reduces them modulo `2^64`. -/
def usedSize (m : Machine) (s : merylCountArray) : Option Nat :=
  if s._segSize = 0 ∨ s._bitsPerPage = 0 then none else
  let fullSegs := s._nBits / s._segSize
  let partSeg := s._nBits % s._segSize + 64
  let pagesUsed := 0
  let pagesUsed := pagesUsed + (fullSegs * (s._segSize / s._bitsPerPage)
    + fullSegs * (if s._segSize % s._bitsPerPage = 0 then 0 else 1))
  let pagesUsed := pagesUsed + (partSeg / s._bitsPerPage
    + (if partSeg % s._bitsPerPage = 0 then 0 else 1))
  let pagesUsed := pagesUsed + 5
  let pagesUsed := pagesUsed + s._nReAlloc
  some (pagesUsed * s._bitsPerPage / 8 + s._segAlloc * m.ptrBytes + m.objBytes)

/-- The member function `usedSize` as the C++ evaluates it: every operand is a `uint64`
(`size_t` is taken to be 64 bits wide), so each sum and each product is reduced modulo
`2^64`; in particular `pagesUsed * _bitsPerPage` wraps before it is divided by 8. -/
def usedSize64 (m : Machine) (s : merylCountArray) : Option Nat :=
  if s._segSize = 0 ∨ s._bitsPerPage = 0 then none else
  let fullSegs := s._nBits / s._segSize
  let partSeg := (s._nBits % s._segSize + 64) % 2 ^ 64
  let pagesUsed := 0
  let pagesUsed := (pagesUsed
    + ((fullSegs * (s._segSize / s._bitsPerPage)) % 2 ^ 64
      + (fullSegs * (if s._segSize % s._bitsPerPage = 0 then 0 else 1)) % 2 ^ 64) % 2 ^ 64)
    % 2 ^ 64
  let pagesUsed := (pagesUsed
    + (partSeg / s._bitsPerPage + (if partSeg % s._bitsPerPage = 0 then 0 else 1)) % 2 ^ 64)
    % 2 ^ 64
  let pagesUsed := (pagesUsed + 5) % 2 ^ 64
  let pagesUsed := (pagesUsed + s._nReAlloc) % 2 ^ 64
  some ((((pagesUsed * s._bitsPerPage) % 2 ^ 64 / 8
    + (s._segAlloc * m.ptrBytes) % 2 ^ 64) % 2 ^ 64 + m.objBytes) % 2 ^ 64)

/-- The member function `usedSizeDelta`: the returned delta and the state it leaves. -/
def usedSizeDelta (m : Machine) (s : merylCountArray) : Option (Nat × merylCountArray) :=
  if s._nBits < s._nBitsTrigger then some (0, s) else
  match usedSize m s with
  | none => none
  | some newSize =>
    let sizeDelta := sub64 newSize s._nBitsOldSize
    some (sizeDelta,
      { s with
        _nBitsTrigger := s._nBitsTrigger + s._bitsPerPage / 16
        _nBitsOldSize := newSize })

/-- The member function `add`: the returned delta and the state it leaves. -/
def add (m : Machine) (s : merylCountArray) (value : Nat) : Option (Nat × merylCountArray) :=
  if s._segSize = 0 then none else
  let seg := s._nBits / s._segSize
  let segPos := s._nBits % s._segSize
  let word := segPos / 64
  let wordBgn := segPos % 64
  let wordEnd := wordBgn + s._width
  let s1 : merylCountArray := { s with _nBits := (s._nBits + s._width) % 2 ^ 64 }
  let s2 : merylCountArray := if word = 0 ∧ wordBgn = 0 then addSegment s1 seg else s1
  if wordBgn = 0 then
    (shl64 value (sub32 64 wordEnd)).bind fun x =>
    (writeWord s2._segments seg word x).bind fun segs =>
    usedSizeDelta m { s2 with _segments := segs }
  else if wordEnd ≤ 64 then
    (shl64 value (sub32 64 wordEnd)).bind fun x =>
    (readWord s2._segments seg word).bind fun old =>
    (writeWord s2._segments seg word (old ||| x)).bind fun segs =>
    usedSizeDelta m { s2 with _segments := segs }
  else if segPos + s._width ≤ s._segSize then
    let extraBits := sub32 wordEnd 64
    if ¬ (wordEnd > 64) then none else
    (shr64 value extraBits).bind fun hi =>
    (readWord s2._segments seg (word + 0)).bind fun old =>
    (writeWord s2._segments seg (word + 0) (old ||| hi)).bind fun segs1 =>
    (shl64 value (sub32 64 extraBits)).bind fun lo =>
    (writeWord segs1 seg (word + 1) lo).bind fun segs2 =>
    usedSizeDelta m { s2 with _segments := segs2 }
  else
    let extraBits := sub32 wordEnd 64
    let s3 := addSegment s2 (seg + 1)
    (shr64 value extraBits).bind fun hi =>
    (readWord s3._segments (seg + 0) word).bind fun old =>
    (writeWord s3._segments (seg + 0) word (old ||| hi)).bind fun segs1 =>
    (shl64 value (sub32 64 extraBits)).bind fun lo =>
    (writeWord segs1 (seg + 1) 0 lo).bind fun segs2 =>
    usedSizeDelta m { s3 with _segments := segs2 }

/-- The member function `get`. -/
def get (s : merylCountArray) (kk : Nat) : Option Nat :=
  if s._segSize = 0 then none else
  let bitPos := (kk * s._width) % 2 ^ 64
  let seg := bitPos / s._segSize
  let segPos := bitPos % s._segSize
  let word := segPos / 64
  let wordBgn := segPos % 64
  let wordEnd := wordBgn + s._width
  if wordEnd ≤ 64 then
    (readWord s._segments seg word).bind fun w =>
    (shr64 w (sub32 64 wordEnd)).bind fun x =>
    some (x &&& uint64MASK s._width)
  else if segPos + s._width ≤ s._segSize then
    let extraBits := sub32 wordEnd 64
    if ¬ (wordEnd > 64) then none else
    (readWord s._segments seg (word + 0)).bind fun w0 =>
    (shl64 (w0 &&& uint64MASK (sub32 s._width extraBits)) extraBits).bind fun bits =>
    (readWord s._segments seg (word + 1)).bind fun w1 =>
    (shr64 w1 (sub32 64 extraBits)).bind fun y =>
    some (bits ||| (y &&& uint64MASK extraBits))
  else
    let extraBits := sub32 wordEnd 64
    (readWord s._segments (seg + 0) word).bind fun w0 =>
    (shl64 (w0 &&& uint64MASK (sub32 s._width extraBits)) extraBits).bind fun bits =>
    (readWord s._segments (seg + 1) 0).bind fun w1 =>
    (shr64 w1 (sub32 64 extraBits)).bind fun y =>
    some (bits ||| (y &&& uint64MASK extraBits))

/-- The member function `numBits`. -/
def numBits (s : merylCountArray) : Nat :=
  s._nBits

/-- Modelled from the spec: `initialize`, which the header declares and another file
defines.  It "sets parameters and resets all counters/estimator state", rejects a
width outside `1..64` and a segment size that is not a positive multiple of 64, and
returns the baseline memory estimate, which it also records as the last computed
size.  The prefix is only stored, in a field left out here. -/
def initializeArray (m : Machine) (width segsize : Nat) : Option (Nat × merylCountArray) :=
  if ¬ (1 ≤ width ∧ width ≤ 64) then none else
  if ¬ (0 < segsize ∧ segsize % 64 = 0) then none else
  let s : merylCountArray :=
    { _width := width
      _bitsPerPage := m.pageBits
      _nReAlloc := 0
      _segSize := segsize
      _segAlloc := 0
      _segments := []
      _nBits := 0
      _nBitsTrigger := 0
      _nBitsOldSize := 0
      segLog := [] }
  match usedSize m s with
  | none => none
  | some base => some (base, { s with _nBitsOldSize := base })

/-- The state after a write phase: `add` called on each value in order, with the
deltas it returned. -/
def addAll (m : Machine) (s : merylCountArray) : List Nat → Option (List Nat × merylCountArray)
  | [] => some ([], s)
  | v :: vs =>
    match add m s v with
    | none => none
    | some (d, s1) =>
      match addAll m s1 vs with
      | none => none
      | some (ds, s2) => some (d :: ds, s2)

/-- The state after `initialize` followed by the write phase on `vs`. -/
def written (m : Machine) (width segsize : Nat) (vs : List Nat) :
    Option (List Nat × merylCountArray) :=
  match initializeArray m width segsize with
  | none => none
  | some (_, s) => addAll m s vs

/-- The values the reader returns at the indices `0 .. n-1`. -/
def getAll (s : merylCountArray) (n : Nat) : List (Option Nat) :=
  (List.range n).map (get s)

/-- A common 64-bit machine: 8-byte pointers, a 96-byte object, 4096-byte pages. -/
def lp64 : Machine :=
  { ptrBytes := 8, objBytes := 96, pageBits := 32768 }

/-! ## Definitions used to state and prove the properties -/

/-- Division rounding up: `divCeil c S` segments hold the first `c` bits, and `divCeil c P`
pages hold `c` bits. -/
def divCeil (c S : Nat) : Nat := (c + S - 1) / S

/-- Segment `k` has a buffer: the pointer `_segments[k]` is inside the index and not null. -/
def allocated (segs : List (Option (List Nat))) (k : Nat) : Bool :=
  match segs[k]? with
  | some (some _) => true
  | _ => false

/-- The bit the packing convention puts at absolute bit position `p` once the values
`vs` of width `W` are written: value `p / W`, counted from its most significant bit. -/
def expectedBit (W : Nat) (vs : List Nat) (p : Nat) : Bool :=
  decide (p < vs.length * W) && (vs.getD (p / W) 0).testBit (W - 1 - p % W)

/-- The segment store holds `A` buffers of `wps` words, each word below `2^64`. -/
structure Store (segs : List (Option (List Nat))) (wps A : Nat) : Prop where
  alloc : ∀ k, allocated segs k ↔ k < A
  readable : ∀ k j, (∃ w, readWord segs k j = some w) ↔ (k < A ∧ j < wps)
  bound : ∀ k j w, readWord segs k j = some w → w < 2 ^ 64

/-- Every word `g` (counted across segments) selected by `ok` shows the bits `E`. -/
def Bits (segs : List (Option (List Nat))) (wps : Nat) (E : Nat → Bool) (ok : Nat → Prop) : Prop :=
  ∀ g w q, ok g → readWord segs (g / wps) (g % wps) = some w → q < 64 →
    w.testBit (63 - q) = E (64 * g + q)

/-- The layout invariant of the writer. -/
structure Shape (s : merylCountArray) : Prop where
  width_pos : 1 ≤ s._width
  width_le : s._width ≤ 64
  seg_pos : 0 < s._segSize
  seg_mul : s._segSize % 64 = 0
  page_pos : 0 < s._bitsPerPage
  len : s._segments.length = s._segAlloc
  store : Store s._segments (s._segSize / 64) (divCeil s._nBits s._segSize)
  log : s.segLog = List.range (divCeil s._nBits s._segSize)

/-- The stored bits are those of the values `vs`, and the cursor is at their end. -/
structure Packed (s : merylCountArray) (vs : List Nat) : Prop where
  nbits : s._nBits = vs.length * s._width
  small : ∀ v ∈ vs, v < 2 ^ s._width
  bits : Bits s._segments (s._segSize / 64) (expectedBit s._width vs) (fun _ => True)

/-- State `t` arises inside `add` on `s`: the cursor is advanced, the scalar parameters and
the estimator fields are those of `s`, and the index has not shrunk. -/
def Frame (s t : merylCountArray) : Prop :=
  t._width = s._width ∧ t._segSize = s._segSize ∧ t._bitsPerPage = s._bitsPerPage ∧
  t._nBits = (s._nBits + s._width) % 2 ^ 64 ∧ s._segAlloc ≤ t._segAlloc ∧
  s._nReAlloc ≤ t._nReAlloc ∧ t._nBitsTrigger = s._nBitsTrigger ∧
  t._nBitsOldSize = s._nBitsOldSize

/-- What one `add` on `s` returns and leaves, as far as the estimator can see. -/
def AddEffect (m : Machine) (s : merylCountArray) (d : Nat) (s1 : merylCountArray) : Prop :=
  s1._width = s._width ∧ s1._segSize = s._segSize ∧ s1._bitsPerPage = s._bitsPerPage ∧
  s1._nBits = (s._nBits + s._width) % 2 ^ 64 ∧ s._segAlloc ≤ s1._segAlloc ∧
  s._nReAlloc ≤ s1._nReAlloc ∧
  ((s1._nBits < s._nBitsTrigger ∧ d = 0 ∧ s1._nBitsTrigger = s._nBitsTrigger ∧
      s1._nBitsOldSize = s._nBitsOldSize) ∨
    (s._nBitsTrigger ≤ s1._nBits ∧ ∃ u, usedSize m s1 = some u ∧
      d = sub64 u s._nBitsOldSize ∧ s1._nBitsOldSize = u ∧
      s1._nBitsTrigger = s._nBitsTrigger + s._bitsPerPage / 16))

/-- The page count of the specification: every full segment counts `ceil(segSize / page)`
pages, the partially filled segment `ceil((bits used in it + 64) / page)` pages, then the
constant 5 and the re-allocation counter. -/
def pagesFormula (s : merylCountArray) : Nat :=
  s._nBits / s._segSize * divCeil s._segSize s._bitsPerPage
    + divCeil (s._nBits % s._segSize + 64) s._bitsPerPage + 5 + s._nReAlloc

/-- The estimate fits 64 bits: the number of bits in the pages counted, which `usedSize`
forms as the product `pagesUsed * _bitsPerPage`, and the number of bytes it returns are
both below `2^64`. -/
def fits64 (m : Machine) (s : merylCountArray) : Bool :=
  decide (pagesFormula s * s._bitsPerPage < 2 ^ 64 ∧
    pagesFormula s * s._bitsPerPage / 8 + s._segAlloc * m.ptrBytes + m.objBytes < 2 ^ 64)

/-- Number of segment buffers that exist. -/
def numAllocated (s : merylCountArray) : Nat :=
  (s._segments.filter Option.isSome).length

/-- The array after `initialize` with width 40 and 64-bit segments on `lp64`. -/
def fresh40 : merylCountArray :=
  { _width := 40, _bitsPerPage := 32768, _nReAlloc := 0, _segSize := 64, _segAlloc := 0,
    _segments := [], _nBits := 0, _nBitsTrigger := 0, _nBitsOldSize := 24672, segLog := [] }

/-- The array `fresh40` after `add(1)`. -/
def once40 : merylCountArray :=
  { _width := 40, _bitsPerPage := 32768, _nReAlloc := 1, _segSize := 64, _segAlloc := 1,
    _segments := [some [16777216]], _nBits := 40, _nBitsTrigger := 2048,
    _nBitsOldSize := 28776, segLog := [0] }

/-- The array `once40` after `add(2)`, which straddles the segments 0 and 1. -/
def twice40 : merylCountArray :=
  { _width := 40, _bitsPerPage := 32768, _nReAlloc := 2, _segSize := 64, _segAlloc := 2,
    _segments := [some [16777216], some [562949953421312]], _nBits := 80,
    _nBitsTrigger := 2048, _nBitsOldSize := 28776, segLog := [0, 1] }

/-- The four ways `add` and `get` place a value: at the start of a word (`add` only, a plain
store), inside one word, across two words of one segment, across two segments. -/
inductive Branch where
  | newWord
  | sameWord
  | crossWord
  | crossSegment
deriving Repr, DecidableEq

/-- The branch of `add` that the cursor of `s` selects: the tests of `add`, in its order. -/
def addBranch (s : merylCountArray) : Branch :=
  let segPos := s._nBits % s._segSize
  let wordBgn := segPos % 64
  let wordEnd := wordBgn + s._width
  if wordBgn = 0 then Branch.newWord
  else if wordEnd ≤ 64 then Branch.sameWord
  else if segPos + s._width ≤ s._segSize then Branch.crossWord
  else Branch.crossSegment

/-- The branch of `get` that index `kk` selects: the tests of `get`, in its order. -/
def getBranch (s : merylCountArray) (kk : Nat) : Branch :=
  let bitPos := (kk * s._width) % 2 ^ 64
  let segPos := bitPos % s._segSize
  let wordBgn := segPos % 64
  let wordEnd := wordBgn + s._width
  if wordEnd ≤ 64 then Branch.sameWord
  else if segPos + s._width ≤ s._segSize then Branch.crossWord
  else Branch.crossSegment

/-- The shift amounts that one `add` on `s` uses: `64 - wordEnd` in the single-word
branches, `extraBits` and `64 - extraBits` in the two straddling branches. -/
def addShifts (s : merylCountArray) : List Nat :=
  let wordBgn := s._nBits % s._segSize % 64
  let wordEnd := wordBgn + s._width
  let extraBits := sub32 wordEnd 64
  match addBranch s with
  | Branch.newWord => [sub32 64 wordEnd]
  | Branch.sameWord => [sub32 64 wordEnd]
  | Branch.crossWord => [extraBits, sub32 64 extraBits]
  | Branch.crossSegment => [extraBits, sub32 64 extraBits]

/-- The shift amounts that `get kk` uses. -/
def getShifts (s : merylCountArray) (kk : Nat) : List Nat :=
  let bitPos := (kk * s._width) % 2 ^ 64
  let wordBgn := bitPos % s._segSize % 64
  let wordEnd := wordBgn + s._width
  let extraBits := sub32 wordEnd 64
  match getBranch s kk with
  | Branch.newWord => []
  | Branch.sameWord => [sub32 64 wordEnd]
  | Branch.crossWord => [extraBits, sub32 64 extraBits]
  | Branch.crossSegment => [extraBits, sub32 64 extraBits]

/-- The widths that `get kk` passes to `uint64MASK`. -/
def getMaskWidths (s : merylCountArray) (kk : Nat) : List Nat :=
  let bitPos := (kk * s._width) % 2 ^ 64
  let wordBgn := bitPos % s._segSize % 64
  let wordEnd := wordBgn + s._width
  let extraBits := sub32 wordEnd 64
  match getBranch s kk with
  | Branch.newWord => []
  | Branch.sameWord => [s._width]
  | Branch.crossWord => [sub32 s._width extraBits, extraBits]
  | Branch.crossSegment => [sub32 s._width extraBits, extraBits]

/-- The array after `initialize` with width 5 and 128-bit segments on `lp64`, then `add(2)`. -/
def once5 : merylCountArray :=
  { _width := 5, _bitsPerPage := 32768, _nReAlloc := 1, _segSize := 128, _segAlloc := 1,
    _segments := [some [1152921504606846976, 0]], _nBits := 5, _nBitsTrigger := 2048,
    _nBitsOldSize := 28776, segLog := [0] }

/-! ## Lemmas -/

/-! ### Machine arithmetic -/

theorem sub32_of_le {a b : Nat} (h : b ≤ a) (ha : a < 2 ^ 32) : sub32 a b = a - b := by
  unfold sub32
  omega

theorem shl64_of_lt {a k : Nat} (h : k < 64) : shl64 a k = some ((a <<< k) % 2 ^ 64) := by
  simp [shl64, h]

theorem shr64_of_lt {a k : Nat} (h : k < 64) : shr64 a k = some (a >>> k) := by
  simp [shr64, h]

theorem testBit_shl64 (v k j : Nat) (hj : j < 64) :
    ((v <<< k) % 2 ^ 64).testBit j = (decide (k ≤ j) && v.testBit (j - k)) := by
  rw [Nat.testBit_mod_two_pow, Nat.testBit_shiftLeft]
  simp [hj]

theorem testBit_of_lt_of_le {v W j : Nat} (hv : v < 2 ^ W) (hj : W ≤ j) : v.testBit j = false :=
  Nat.testBit_lt_two_pow (lt_of_lt_of_le hv (Nat.pow_le_pow_right (by decide) hj))

/-! ### Division by the segment size -/

theorem divmod_unique {c q r S : Nat} (h : c = q * S + r) (hr : r < S) :
    c / S = q ∧ c % S = r := by
  subst h
  have hS : 0 < S := by omega
  constructor
  · rw [Nat.add_comm, Nat.add_mul_div_right _ _ hS, Nat.div_eq_of_lt hr, Nat.zero_add]
  · rw [Nat.add_comm, Nat.add_mul_mod_self_right, Nat.mod_eq_of_lt hr]

theorem divCeil_eq {c S : Nat} (hS : 0 < S) :
    divCeil c S = c / S + (if c % S = 0 then 0 else 1) := by
  unfold divCeil
  have h1 : c + S - 1 = (c % S + S - 1) + (c / S) * S := by
    have := Nat.div_add_mod' c S
    omega
  rw [h1, Nat.add_mul_div_right _ _ hS]
  have hr : c % S < S := Nat.mod_lt _ hS
  split
  · next h0 =>
    rw [h0, Nat.div_eq_of_lt (by omega)]
    omega
  · next h0 =>
    have : (c % S + S - 1) / S = 1 := by
      apply Nat.div_eq_of_lt_le <;> omega
    omega

theorem lt_divCeil_iff {c S : Nat} (hS : 0 < S) (k : Nat) : k < divCeil c S ↔ k * S < c := by
  rw [divCeil_eq hS]
  have h := Nat.div_add_mod' c S
  have hr : c % S < S := Nat.mod_lt _ hS
  constructor
  · intro hk
    split at hk
    · have : (k + 1) * S ≤ (c / S) * S := Nat.mul_le_mul_right _ (by omega)
      rw [Nat.add_mul] at this
      omega
    · have : k * S ≤ (c / S) * S := Nat.mul_le_mul_right _ (by omega)
      omega
  · intro hk
    by_contra hcon
    split at hcon
    · have : (c / S) * S ≤ k * S := Nat.mul_le_mul_right _ (by omega)
      omega
    · have : (c / S + 1) * S ≤ k * S := Nat.mul_le_mul_right _ (by omega)
      rw [Nat.add_mul] at this
      omega

theorem allocated_iff {segs : List (Option (List Nat))} {k : Nat} :
    allocated segs k = true ↔ ∃ buf, segs[k]? = some (some buf) := by
  unfold allocated
  split
  · next buf h => simp [h]
  · next h =>
    simp only [Bool.false_eq_true, false_iff, not_exists]
    intro buf hb
    exact h buf hb

theorem readWord_eq_some {segs : List (Option (List Nat))} {k j w : Nat} :
    readWord segs k j = some w ↔ ∃ buf, segs[k]? = some (some buf) ∧ buf[j]? = some w := by
  unfold readWord
  constructor
  · intro h
    split at h
    · next buf hb => exact ⟨buf, hb, h⟩
    · exact absurd h (by simp)
  · rintro ⟨buf, hb, hw⟩
    rw [hb]
    exact hw

theorem readWord_pad (segs : List (Option (List Nat))) (n k j : Nat) :
    readWord (segs ++ List.replicate n none) k j = readWord segs k j := by
  unfold readWord
  by_cases hk : k < segs.length
  · rw [List.getElem?_append_left hk]
  · rw [List.getElem?_append_right (by omega), List.getElem?_eq_none (l := segs) (by omega)]
    rw [List.getElem?_replicate]
    by_cases h : k - segs.length < n <;> simp [h]

theorem allocated_pad (segs : List (Option (List Nat))) (n k : Nat) :
    allocated (segs ++ List.replicate n none) k ↔ allocated segs k := by
  rw [allocated_iff, allocated_iff]
  by_cases hk : k < segs.length
  · rw [List.getElem?_append_left hk]
  · rw [List.getElem?_append_right (by omega), List.getElem?_eq_none (l := segs) (by omega)]
    rw [List.getElem?_replicate]
    split <;> simp

theorem readWord_set (segs : List (Option (List Nat))) (k : Nat) (hk : k < segs.length)
    (buf : List Nat) (k1 j1 : Nat) :
    readWord (segs.set k (some buf)) k1 j1 = if k1 = k then buf[j1]? else readWord segs k1 j1 := by
  unfold readWord
  rw [List.getElem?_set]
  by_cases h : k = k1
  · subst h
    simp [hk]
  · simp [h, Ne.symm h]

theorem allocated_set (segs : List (Option (List Nat))) (k : Nat) (hk : k < segs.length)
    (buf : List Nat) (k1 : Nat) :
    allocated (segs.set k (some buf)) k1 ↔ (k1 = k ∨ allocated segs k1) := by
  rw [allocated_iff, allocated_iff]
  rw [List.getElem?_set]
  by_cases h : k = k1
  · subst h
    simp [hk]
  · simp [h, Ne.symm h]

/-- Effect of a successful store on the words one can read back. -/
theorem writeWord_spec {segs : List (Option (List Nat))} {k j w : Nat} (x : Nat)
    (h : readWord segs k j = some w) :
    ∃ segs1, writeWord segs k j x = some segs1 ∧ segs1.length = segs.length ∧
      (∀ k1 j1, readWord segs1 k1 j1 =
        if k1 = k ∧ j1 = j then some x else readWord segs k1 j1) ∧
      (∀ k1, allocated segs1 k1 ↔ allocated segs k1) := by
  obtain ⟨buf, hb, hw⟩ := readWord_eq_some.mp h
  have hj : j < buf.length := by
    obtain ⟨hj, _⟩ := List.getElem?_eq_some.mp hw
    exact hj
  have hk : k < segs.length := by
    obtain ⟨hk, _⟩ := List.getElem?_eq_some.mp hb
    exact hk
  refine ⟨segs.set k (some (buf.set j x)), ?_, by simp, ?_, ?_⟩
  · unfold writeWord
    rw [hb]
    simp [hj]
  · intro k1 j1
    rw [readWord_set _ _ hk]
    by_cases h1 : k1 = k
    · subst h1
      rw [List.getElem?_set]
      by_cases h2 : j = j1
      · subst h2
        simp [hj]
      · have : readWord segs k1 j1 = buf[j1]? := by
          unfold readWord
          rw [hb]
        simp [h2, Ne.symm h2, this]
    · simp [h1]
  · intro k1
    rw [allocated_set _ _ hk]
    constructor
    · rintro (h1 | h1)
      · subst h1
        exact allocated_iff.mpr ⟨buf, hb⟩
      · exact h1
    · intro h1
      exact Or.inr h1

/-- Effect of `addSegment` when the pointer index is as long as `_segAlloc` says. -/
theorem addSegment_spec (s : merylCountArray) (k : Nat)
    (hlen : s._segments.length = s._segAlloc) :
    (addSegment s k)._segments.length = (addSegment s k)._segAlloc ∧
    (∀ k1 j1, readWord (addSegment s k)._segments k1 j1 =
      if k1 = k then (if j1 < s._segSize / 64 then some 0 else none)
      else readWord s._segments k1 j1) ∧
    (∀ k1, allocated (addSegment s k)._segments k1 ↔ (k1 = k ∨ allocated s._segments k1)) ∧
    (addSegment s k).segLog = s.segLog ++ [k] ∧
    (addSegment s k)._nBits = s._nBits ∧
    (addSegment s k)._width = s._width ∧
    (addSegment s k)._segSize = s._segSize ∧
    (addSegment s k)._bitsPerPage = s._bitsPerPage ∧
    (addSegment s k)._nBitsTrigger = s._nBitsTrigger ∧
    (addSegment s k)._nBitsOldSize = s._nBitsOldSize ∧
    s._segAlloc ≤ (addSegment s k)._segAlloc ∧
    s._nReAlloc ≤ (addSegment s k)._nReAlloc := by
  unfold addSegment
  by_cases hg : s._segAlloc ≤ k
  · rw [if_pos hg]
    have hk : k < (s._segments ++ List.replicate (k + 1 - s._segments.length) none).length := by
      simp
      omega
    refine ⟨by simp; omega, ?_, ?_, rfl, rfl, rfl, rfl, rfl, rfl, rfl, by simp; omega, by simp⟩
    · intro k1 j1
      rw [readWord_set _ _ hk, readWord_pad, List.getElem?_replicate]
    · intro k1
      rw [allocated_set _ _ hk, allocated_pad]
  · rw [if_neg hg]
    have hk : k < s._segments.length := by omega
    refine ⟨by simp; omega, ?_, ?_, rfl, rfl, rfl, rfl, rfl, rfl, rfl, by simp, by simp⟩
    · intro k1 j1
      rw [readWord_set _ _ hk, List.getElem?_replicate]
    · intro k1
      rw [allocated_set _ _ hk]

theorem expectedBit_snoc {W : Nat} (hW : 0 < W) (vs : List Nat) (v p : Nat) :
    expectedBit W (vs ++ [v]) p =
      if p < vs.length * W then expectedBit W vs p
      else (decide (p < vs.length * W + W) && v.testBit (vs.length * W + W - 1 - p)) := by
  unfold expectedBit
  have hlen : (vs ++ [v]).length * W = vs.length * W + W := by
    rw [List.length_append, List.length_singleton, Nat.add_mul, Nat.one_mul]
  rw [hlen]
  by_cases h1 : p < vs.length * W
  · have hi : p / W < vs.length := (Nat.div_lt_iff_lt_mul hW).mpr h1
    have h2 : p < vs.length * W + W := by omega
    rw [if_pos h1]
    simp only [List.getD_eq_getElem?_getD, List.getElem?_append_left hi, h1, h2]
  · rw [if_neg h1]
    by_cases h2 : p < vs.length * W + W
    · obtain ⟨hq, hr⟩ := divmod_unique (c := p) (q := vs.length) (r := p - vs.length * W)
        (S := W) (by omega) (by omega)
      rw [hq, hr]
      have : W - 1 - (p - vs.length * W) = vs.length * W + W - 1 - p := by omega
      simp [h2, this]
    · simp [h2]

theorem expectedBit_at {W : Nat} (vs : List Nat) {i t : Nat} (hi : i < vs.length) (ht : t < W) :
    expectedBit W vs (i * W + t) = (vs.getD i 0).testBit (W - 1 - t) := by
  unfold expectedBit
  obtain ⟨hq, hr⟩ := divmod_unique (c := i * W + t) (q := i) (r := t) (S := W) rfl ht
  have h1 : (i + 1) * W ≤ vs.length * W := Nat.mul_le_mul_right _ hi
  rw [Nat.add_mul, Nat.one_mul] at h1
  have h2 : i * W + t < vs.length * W := by omega
  rw [hq, hr]
  simp [h2]

theorem expectedBit_of_le {W : Nat} (vs : List Nat) {p : Nat} (h : vs.length * W ≤ p) :
    expectedBit W vs p = false := by
  unfold expectedBit
  simp [Nat.not_lt.mpr h]

/-! ### Word index across segments -/

theorem flat_inj {wps g g0 : Nat} (h1 : g / wps = g0 / wps) (h2 : g % wps = g0 % wps) :
    g = g0 := by
  rw [← Nat.div_add_mod' g wps, ← Nat.div_add_mod' g0 wps, h1, h2]

theorem flat_next_same {g n : Nat} (h : g % n + 1 < n) :
    (g + 1) / n = g / n ∧ (g + 1) % n = g % n + 1 := by
  apply divmod_unique _ h
  have := Nat.div_add_mod' g n
  omega

theorem flat_next_cross {g n : Nat} (h : g % n + 1 = n) :
    (g + 1) / n = g / n + 1 ∧ (g + 1) % n = 0 := by
  apply divmod_unique _ (by omega)
  have := Nat.div_add_mod' g n
  rw [Nat.add_mul, Nat.one_mul]
  omega

/-! ### Stores -/

theorem store_write {segs : List (Option (List Nat))} {wps A k j x : Nat}
    (h : Store segs wps A) (hk : k < A) (hj : j < wps) (hx : x < 2 ^ 64) :
    ∃ segs1, writeWord segs k j x = some segs1 ∧ segs1.length = segs.length ∧
      Store segs1 wps A ∧
      (∀ k1 j1, readWord segs1 k1 j1 =
        if k1 = k ∧ j1 = j then some x else readWord segs k1 j1) := by
  obtain ⟨w, hw⟩ := (h.readable k j).mpr ⟨hk, hj⟩
  obtain ⟨segs1, h1, h2, h3, h4⟩ := writeWord_spec x hw
  refine ⟨segs1, h1, h2, ⟨?_, ?_, ?_⟩, h3⟩
  · intro k1
    rw [h4, h.alloc]
  · intro k1 j1
    rw [h3, ← h.readable]
    by_cases hc : k1 = k ∧ j1 = j
    · obtain ⟨rfl, rfl⟩ := hc
      simp [hw]
    · simp [hc]
  · intro k1 j1 w1
    rw [h3]
    by_cases hc : k1 = k ∧ j1 = j
    · simp only [hc, and_self, if_true, Option.some.injEq]
      intro e
      omega
    · simp only [hc, if_false]
      exact h.bound k1 j1 w1

theorem store_read {segs : List (Option (List Nat))} {wps A k j : Nat}
    (h : Store segs wps A) (hk : k < A) (hj : j < wps) :
    ∃ w, readWord segs k j = some w ∧ w < 2 ^ 64 := by
  obtain ⟨w, hw⟩ := (h.readable k j).mpr ⟨hk, hj⟩
  exact ⟨w, hw, h.bound k j w hw⟩

theorem store_addSegment {s : merylCountArray} {wps A : Nat}
    (h : Store s._segments wps A) (hlen : s._segments.length = s._segAlloc)
    (hwps : s._segSize / 64 = wps) :
    Store (addSegment s A)._segments wps (A + 1) := by
  obtain ⟨-, hr, ha, -⟩ := addSegment_spec s A hlen
  refine ⟨?_, ?_, ?_⟩
  · intro k
    rw [ha, h.alloc]
    omega
  · intro k j
    rw [hr, hwps]
    by_cases hk : k = A
    · subst hk
      by_cases hj : j < wps <;> simp [hj]
    · simp only [hk, if_false]
      rw [h.readable]
      omega
  · intro k j w
    rw [hr]
    by_cases hk : k = A
    · simp only [hk, if_true]
      split
      · intro e
        simp only [Option.some.injEq] at e
        subst e
        exact Nat.two_pow_pos 64
      · intro e
        exact absurd e (by simp)
    · simp only [hk, if_false]
      exact h.bound k j w

/-! ### Bits -/

theorem bits_write {segs segs1 : List (Option (List Nat))} {wps c x : Nat} {E : Nat → Bool}
    {ok : Nat → Prop} (h : Bits segs wps E ok)
    (hr : ∀ k1 j1, readWord segs1 k1 j1 =
        if k1 = c / wps ∧ j1 = c % wps then some x else readWord segs k1 j1)
    (hx : ∀ q, q < 64 → x.testBit (63 - q) = E (64 * c + q)) :
    Bits segs1 wps E (fun g => ok g ∨ g = c) := by
  intro g w q hok hw hq
  rw [hr] at hw
  by_cases hg : g = c
  · subst hg
    simp only [and_self, if_true, Option.some.injEq] at hw
    subst hw
    exact hx q hq
  · have hne : ¬ (g / wps = c / wps ∧ g % wps = c % wps) := fun hc => hg (flat_inj hc.1 hc.2)
    rw [if_neg hne] at hw
    rcases hok with hok | hok
    · exact h g w q hok hw hq
    · exact absurd hok hg

theorem bits_mono {segs : List (Option (List Nat))} {wps : Nat} {E E1 : Nat → Bool}
    {ok ok1 : Nat → Prop} (h : Bits segs wps E ok)
    (hok : ∀ g, ok1 g → ok g)
    (hE : ∀ g q, ok1 g → q < 64 → E1 (64 * g + q) = E (64 * g + q)) :
    Bits segs wps E1 ok1 := by
  intro g w q h1 hw hq
  rw [hE g q h1 hq]
  exact h g w q (hok g h1) hw hq

theorem bits_addSegment {s : merylCountArray} {wps A : Nat} {E : Nat → Bool} {ok : Nat → Prop}
    (h : Bits s._segments wps E ok) (hlen : s._segments.length = s._segAlloc)
    (hE : ∀ g q, g / wps = A → q < 64 → E (64 * g + q) = false) :
    Bits (addSegment s A)._segments wps E ok := by
  obtain ⟨-, hr, -⟩ := addSegment_spec s A hlen
  intro g w q hok hw hq
  rw [hr] at hw
  by_cases hk : g / wps = A
  · rw [if_pos hk] at hw
    split at hw
    · simp only [Option.some.injEq] at hw
      subst hw
      rw [hE g q hk hq]
      simp
    · exact absurd hw (by simp)
  · rw [if_neg hk] at hw
    exact h g w q hok hw hq

/-! ### The three stored words, bit by bit -/

theorem bits_single {v W b q : Nat} (hv : v < 2 ^ W) (hbW : b + W ≤ 64) (hq : q < 64) :
    ((v <<< (64 - (b + W))) % 2 ^ 64).testBit (63 - q)
      = (decide (b ≤ q ∧ q < b + W) && v.testBit (b + W - 1 - q)) := by
  rw [testBit_shl64 _ _ _ (by omega)]
  by_cases h1 : q < b + W
  · by_cases h2 : b ≤ q
    · have : 63 - q - (64 - (b + W)) = b + W - 1 - q := by omega
      simp [h1, h2, this]
      omega
    · have h3 : v.testBit (63 - q - (64 - (b + W))) = false :=
        testBit_of_lt_of_le hv (by omega)
      simp [h2, h3]
  · have : ¬ (64 - (b + W) ≤ 63 - q) := by omega
    simp [h1, this]

theorem bits_high {v W b q : Nat} (hv : v < 2 ^ W) (hbW : 64 < b + W)
    (hq : q < 64) :
    (v >>> (b + W - 64)).testBit (63 - q)
      = (decide (b ≤ q ∧ q < b + W) && v.testBit (b + W - 1 - q)) := by
  rw [Nat.testBit_shiftRight]
  have : b + W - 64 + (63 - q) = b + W - 1 - q := by omega
  rw [this]
  by_cases h2 : b ≤ q
  · have h4 : b ≤ q ∧ q < b + W := by omega
    simp [h4]
  · have h3 : v.testBit (b + W - 1 - q) = false := testBit_of_lt_of_le hv (by omega)
    simp [h2, h3]

theorem bits_low {v e q : Nat} (he : 1 ≤ e) (he2 : e ≤ 63) (hq : q < 64) :
    ((v <<< (64 - e)) % 2 ^ 64).testBit (63 - q) = (decide (q < e) && v.testBit (e - 1 - q)) := by
  rw [testBit_shl64 _ _ _ (by omega)]
  by_cases h1 : q < e
  · have : 63 - q - (64 - e) = e - 1 - q := by omega
    simp [h1, this]
    omega
  · have : ¬ (64 - e ≤ 63 - q) := by omega
    simp [h1, this]

theorem shape_setEstimator {s : merylCountArray} (h : Shape s) (t o : Nat) :
    Shape { s with _nBitsTrigger := t, _nBitsOldSize := o } :=
  ⟨h.width_pos, h.width_le, h.seg_pos, h.seg_mul, h.page_pos, h.len, h.store, h.log⟩

theorem packed_setEstimator {s : merylCountArray} {vs : List Nat} (h : Packed s vs) (t o : Nat) :
    Packed { s with _nBitsTrigger := t, _nBitsOldSize := o } vs :=
  ⟨h.nbits, h.small, h.bits⟩

theorem usedSize_isSome (m : Machine) {s : merylCountArray} (h1 : 0 < s._segSize)
    (h2 : 0 < s._bitsPerPage) : ∃ u, usedSize m s = some u := by
  unfold usedSize
  rw [if_neg (by omega)]
  exact ⟨_, rfl⟩

/-- The estimator step after the stores: it succeeds and keeps the invariant. -/
theorem finish (m : Machine) {t : merylCountArray} (hS : Shape t) :
    ∃ d t1, usedSizeDelta m t = some (d, t1) ∧ Shape t1 ∧
      (∀ vs, Packed t vs → Packed t1 vs) ∧
      t1._width = t._width ∧ t1._segSize = t._segSize ∧ t1._bitsPerPage = t._bitsPerPage ∧
      t1._nBits = t._nBits ∧ t1._segments = t._segments ∧ t1.segLog = t.segLog ∧
      t1._segAlloc = t._segAlloc ∧ t1._nReAlloc = t._nReAlloc := by
  unfold usedSizeDelta
  by_cases h : t._nBits < t._nBitsTrigger
  · rw [if_pos h]
    exact ⟨0, t, rfl, hS, fun _ hP => hP, rfl, rfl, rfl, rfl, rfl, rfl, rfl, rfl⟩
  · rw [if_neg h]
    obtain ⟨u, hu⟩ := usedSize_isSome m hS.seg_pos hS.page_pos
    rw [hu]
    exact ⟨_, _, rfl, shape_setEstimator hS _ _, fun _ hP => packed_setEstimator hP _ _, rfl, rfl, rfl, rfl,
      rfl, rfl, rfl, rfl⟩

theorem cursor_facts (c S W : Nat) (hS : 0 < S) (h64 : S % 64 = 0) (hW1 : 1 ≤ W)
    (hW2 : W ≤ 64) :
    c % S < S ∧ c = c / S * S + c % S ∧ c / S * S = 64 * (c / S * (S / 64)) ∧
    S = 64 * (S / 64) ∧
    (c / S * (S / 64) + c % S / 64) / (S / 64) = c / S ∧
    (c / S * (S / 64) + c % S / 64) % (S / 64) = c % S / 64 ∧
    divCeil c S = c / S + (if c % S = 0 then 0 else 1) ∧
    divCeil (c + W) S = (if c % S + W ≤ S then c / S + 1 else c / S + 2) := by
  have hSw : S = 64 * (S / 64) := by omega
  have hR : c % S < S := Nat.mod_lt _ hS
  have hc : c = c / S * S + c % S := (Nat.div_add_mod' c S).symm
  have hKS : c / S * S = 64 * (c / S * (S / 64)) :=
    calc c / S * S = c / S * (64 * (S / 64)) := by rw [← hSw]
      _ = 64 * (c / S * (S / 64)) := by ring
  obtain ⟨h1, h2⟩ := divmod_unique (c := c / S * (S / 64) + c % S / 64) (q := c / S)
    (r := c % S / 64) (S := S / 64) rfl (by omega)
  refine ⟨hR, hc, hKS, hSw, h1, h2, divCeil_eq hS, ?_⟩
  rw [divCeil_eq hS]
  by_cases hfit : c % S + W ≤ S
  · rw [if_pos hfit]
    by_cases hlt : c % S + W < S
    · obtain ⟨h3, h4⟩ := divmod_unique (c := c + W) (q := c / S) (r := c % S + W) (S := S)
        (by omega) hlt
      rw [h3, h4, if_neg (by omega)]
    · obtain ⟨h3, h4⟩ := divmod_unique (c := c + W) (q := c / S + 1) (r := 0) (S := S)
        (by rw [Nat.add_mul]; omega) hS
      rw [h3, h4, if_pos rfl]
  · rw [if_neg hfit]
    obtain ⟨h3, h4⟩ := divmod_unique (c := c + W) (q := c / S + 1) (r := c % S + W - S) (S := S)
      (by rw [Nat.add_mul]; omega) (by omega)
    rw [h3, h4, if_neg (by omega)]

theorem shape_of {s t : merylCountArray} (hS : Shape s) (hw : t._width = s._width)
    (hs : t._segSize = s._segSize) (hp : t._bitsPerPage = s._bitsPerPage)
    (hl : t._segments.length = t._segAlloc) (A : Nat)
    (hA : divCeil t._nBits s._segSize = A)
    (hst : Store t._segments (s._segSize / 64) A) (hlog : t.segLog = List.range A) :
    Shape t := by
  refine ⟨?_, ?_, ?_, ?_, ?_, hl, ?_, ?_⟩
  · rw [hw]; exact hS.width_pos
  · rw [hw]; exact hS.width_le
  · rw [hs]; exact hS.seg_pos
  · rw [hs]; exact hS.seg_mul
  · rw [hp]; exact hS.page_pos
  · rw [hs, hA]; exact hst
  · rw [hs, hA]; exact hlog

theorem packed_of {s t : merylCountArray} {vs : List Nat} (hw : t._width = s._width)
    (hs : t._segSize = s._segSize) (hn : t._nBits = vs.length * s._width)
    (hsm : ∀ v ∈ vs, v < 2 ^ s._width)
    (hb : Bits t._segments (s._segSize / 64) (expectedBit s._width vs) (fun _ => True)) :
    Packed t vs := by
  refine ⟨?_, ?_, ?_⟩
  · rw [hw]; exact hn
  · rw [hw]; exact hsm
  · rw [hw, hs]; exact hb

/-- The state in which `add` performs its stores: the cursor is advanced and the segment
of the old cursor exists. -/
theorem prep {s : merylCountArray} (hS : Shape s)
    (c1 K R : Nat) (hK : s._nBits / s._segSize = K) (hR : s._nBits % s._segSize = R) :
    ∃ s2, (if R / 64 = 0 ∧ R % 64 = 0 then addSegment { s with _nBits := c1 } K
        else { s with _nBits := c1 }) = s2 ∧
      s2._segments.length = s2._segAlloc ∧
      Store s2._segments (s._segSize / 64) (K + 1) ∧
      (∀ vs, Packed s vs →
        Bits s2._segments (s._segSize / 64) (expectedBit s._width vs) (fun _ => True)) ∧
      s2._nBits = c1 ∧ s2._width = s._width ∧ s2._segSize = s._segSize ∧
      s2._bitsPerPage = s._bitsPerPage ∧ s2.segLog = List.range (K + 1) ∧
      s._segAlloc ≤ s2._segAlloc ∧ s._nReAlloc ≤ s2._nReAlloc := by
  obtain ⟨hRlt, hc, hKS, hSw, -, -, hA, -⟩ :=
    cursor_facts s._nBits s._segSize s._width hS.seg_pos hS.seg_mul hS.width_pos hS.width_le
  rw [hK] at hKS
  rw [hK, hR] at hA hc
  have hst := hS.store
  have hlog := hS.log
  rw [hA] at hst hlog
  by_cases h : R / 64 = 0 ∧ R % 64 = 0
  · rw [if_pos h]
    have hR0 : R = 0 := by omega
    rw [if_pos hR0, Nat.add_zero] at hst hlog
    obtain ⟨e1, -, -, e4, e5, e6, e7, e8, -, -, e11, e12⟩ :=
      addSegment_spec { s with _nBits := c1 } K hS.len
    refine ⟨_, rfl, e1, ?_, ?_, e5, e6, e7, e8, ?_, e11, e12⟩
    · exact store_addSegment (s := { s with _nBits := c1 }) hst hS.len rfl
    · intro vs hP
      apply bits_addSegment (s := { s with _nBits := c1 }) hP.bits hS.len
      intro g q hg hq
      apply expectedBit_of_le
      rw [← hP.nbits]
      have := Nat.div_add_mod' g (s._segSize / 64)
      rw [hg] at this
      omega
    · rw [e4, List.range_succ]
      show s.segLog ++ [K] = _
      rw [hlog]
  · rw [if_neg h]
    have hR0 : ¬ R = 0 := by omega
    rw [if_neg hR0] at hst hlog
    exact ⟨_, rfl, hS.len, hst, fun _ hP => hP.bits, rfl, rfl, rfl, rfl, hlog, le_refl _,
      le_refl _⟩

/-- Bits of the word holding the old cursor, after the new value is or-ed in. -/
theorem bits_cur {W g0 b v o y : Nat} {vs : List Nat} (hW : 0 < W)
    (hc : vs.length * W = 64 * g0 + b)
    (hold : ∀ q, q < 64 → o.testBit (63 - q) = expectedBit W vs (64 * g0 + q))
    (hy : ∀ q, q < 64 → y.testBit (63 - q)
      = (decide (b ≤ q ∧ q < b + W) && v.testBit (b + W - 1 - q))) :
    ∀ q, q < 64 → (o ||| y).testBit (63 - q) = expectedBit W (vs ++ [v]) (64 * g0 + q) := by
  intro q hq
  rw [Nat.testBit_or, hold q hq, hy q hq, expectedBit_snoc hW, hc]
  by_cases h1 : q < b
  · have h2 : 64 * g0 + q < 64 * g0 + b := by omega
    have h3 : ¬ (b ≤ q ∧ q < b + W) := by omega
    simp [h2, h3]
  · have h2 : ¬ (64 * g0 + q < 64 * g0 + b) := by omega
    have h3 : expectedBit W vs (64 * g0 + q) = false := expectedBit_of_le vs (by omega)
    have h4 : 64 * g0 + b + W - 1 - (64 * g0 + q) = b + W - 1 - q := by omega
    rw [if_neg h2, h3, h4]
    by_cases h5 : q < b + W
    · have h6 : 64 * g0 + q < 64 * g0 + b + W := by omega
      have h7 : b ≤ q ∧ q < b + W := by omega
      simp [h6, h7]
    · have h6 : ¬ (64 * g0 + q < 64 * g0 + b + W) := by omega
      have h7 : ¬ (b ≤ q ∧ q < b + W) := by omega
      simp [h6, h7]

/-- Bits of the next word, which receives the low part of a straddling value. -/
theorem bits_next {W g0 b v z : Nat} {vs : List Nat} (hW : 0 < W)
    (hc : vs.length * W = 64 * g0 + b) (hb : b < 64) (hbW : 64 < b + W)
    (hz : ∀ q, q < 64 → z.testBit (63 - q)
      = (decide (q < b + W - 64) && v.testBit (b + W - 64 - 1 - q))) :
    ∀ q, q < 64 → z.testBit (63 - q) = expectedBit W (vs ++ [v]) (64 * (g0 + 1) + q) := by
  intro q hq
  rw [hz q hq, expectedBit_snoc hW, hc]
  have h2 : ¬ (64 * (g0 + 1) + q < 64 * g0 + b) := by omega
  have h4 : 64 * g0 + b + W - 1 - (64 * (g0 + 1) + q) = b + W - 64 - 1 - q := by omega
  rw [if_neg h2, h4]
  by_cases h5 : q < b + W - 64
  · have h6 : 64 * (g0 + 1) + q < 64 * g0 + b + W := by omega
    simp [h5, h6]
  · have h6 : ¬ (64 * (g0 + 1) + q < 64 * g0 + b + W) := by omega
    simp [h5, h6]

/-- Away from the words the new value touches, the expected bits do not change. -/
theorem expectedBit_far {W : Nat} (hW : 0 < W) (vs : List Nat) (v p : Nat)
    (h : p < vs.length * W ∨ vs.length * W + W ≤ p) :
    expectedBit W (vs ++ [v]) p = expectedBit W vs p := by
  rw [expectedBit_snoc hW]
  by_cases h1 : p < vs.length * W
  · rw [if_pos h1]
  · rw [if_neg h1, expectedBit_of_le vs (by omega)]
    have : ¬ (p < vs.length * W + W) := by omega
    simp [this]

/-- One `add` of a value below `2^W` succeeds and keeps the layout invariant. -/
theorem add_step (m : Machine) {s : merylCountArray} {v : Nat}
    (hS : Shape s) (hv64 : v < 2 ^ 64) (hc : s._nBits + s._width < 2 ^ 64) :
    ∃ d s1, add m s v = some (d, s1) ∧ Shape s1 ∧
      s1._width = s._width ∧ s1._segSize = s._segSize ∧
      s1._bitsPerPage = s._bitsPerPage ∧ s1._nBits = s._nBits + s._width ∧
      (∀ vs, Packed s vs → v < 2 ^ s._width → Packed s1 (vs ++ [v])) := by
  have hW1 := hS.width_pos
  have hW2 := hS.width_le
  obtain ⟨hRlt, hceq, hKS, hSw, hgd, hgm, -, hA1⟩ :=
    cursor_facts s._nBits s._segSize s._width hS.seg_pos hS.seg_mul hW1 hW2
  have hsmall : ∀ vs, Packed s vs → v < 2 ^ s._width → ∀ u ∈ vs ++ [v], u < 2 ^ s._width := by
    intro vs hP hv u hu
    rcases List.mem_append.mp hu with h | h
    · exact hP.small u h
    · rw [List.mem_singleton.mp h]; exact hv
  have hlen1 : ∀ vs, Packed s vs → (vs ++ [v]).length * s._width = s._nBits + s._width := by
    intro vs hP
    rw [List.length_append, List.length_singleton, Nat.add_mul, Nat.one_mul, hP.nbits]
  unfold add
  rw [if_neg (by have := hS.seg_pos; omega)]
  simp only []
  rw [Nat.mod_eq_of_lt hc]
  generalize hK : s._nBits / s._segSize = K at *
  generalize hR : s._nBits % s._segSize = R at *
  generalize hg0 : K * (s._segSize / 64) + R / 64 = g0 at *
  have hcg : ∀ vs, Packed s vs → vs.length * s._width = 64 * g0 + R % 64 := by
    intro vs hP
    have := hP.nbits
    omega
  obtain ⟨s2, hs2, hl2, hst2, hb2, hn2, hw2, hss2, hp2, hlog2, -, -⟩ :=
    prep hS (s._nBits + s._width) K R hK hR
  rw [hs2]
  clear hs2
  -- the bits of the words the new value does not touch
  have hfar : ∀ vs, Packed s vs → ∀ (segs : List (Option (List Nat))) (ok : Nat → Prop),
      Bits segs (s._segSize / 64) (expectedBit s._width vs) (fun _ => True) →
      (∀ g, ok g → g ≠ g0 ∧ (g ≠ g0 + 1 ∨ R % 64 + s._width ≤ 64)) →
      Bits segs (s._segSize / 64) (expectedBit s._width (vs ++ [v])) ok := by
    intro vs hP segs ok hbs hok
    apply bits_mono hbs (fun _ _ => trivial)
    intro g q hg hq
    apply expectedBit_far (by omega)
    have := hok g hg
    have := hcg vs hP
    omega
  by_cases hb : R % 64 = 0
  · -- the value starts a word
    rw [if_pos hb]
    have hx : shl64 v (sub32 64 (R % 64 + s._width))
        = some ((v <<< (64 - (R % 64 + s._width))) % 2 ^ 64) := by
      rw [sub32_of_le (by omega) (by decide), shl64_of_lt (by omega)]
    rw [hx, Option.some_bind]
    obtain ⟨segs1, hw, hl, hst, hrd⟩ := store_write hst2 (k := K) (j := R / 64)
      (x := (v <<< (64 - (R % 64 + s._width))) % 2 ^ 64) (by omega) (by omega)
      (Nat.mod_lt _ (by decide))
    rw [hw, Option.some_bind]
    have hbits : ∀ vs, Packed s vs → v < 2 ^ s._width →
        Bits segs1 (s._segSize / 64) (expectedBit s._width (vs ++ [v])) (fun _ => True) := by
      intro vs hP hv
      have hcg1 := hcg vs hP
      have h1 := bits_write (c := g0)
        (hfar vs hP _ (fun g => g ≠ g0) (hb2 vs hP) (fun g hg => ⟨hg, by omega⟩))
        (by rw [hgd, hgm]; exact hrd)
        (by
          have := bits_cur (o := 0) (v := v) (by omega) (hcg vs hP)
            (fun q hq => by rw [Nat.zero_testBit, expectedBit_of_le vs (by omega)])
            (fun q hq => bits_single hv (by omega) hq)
          simpa using this)
      exact bits_mono h1 (fun g _ => by by_cases h : g = g0 <;> simp [h]) (fun _ _ _ _ => rfl)
    have hA : divCeil (s._nBits + s._width) s._segSize = K + 1 := by
      rw [hA1, if_pos (by omega)]
    obtain ⟨d, t1, hd, hS1, hPk, e1, e2, e3, e4, -⟩ :=
      finish m (t := { s2 with _segments := segs1 })
        (shape_of hS hw2 hss2 hp2 (hl.trans hl2) (K + 1) (by rw [← hA]; congr 1) hst hlog2)
    have hpk : ∀ vs, Packed s vs → v < 2 ^ s._width → Packed t1 (vs ++ [v]) :=
      fun vs hP hv => hPk _ (packed_of hw2 hss2 (hn2.trans (hlen1 vs hP).symm)
        (hsmall vs hP hv) (hbits vs hP hv))
    exact ⟨d, t1, hd, hS1, e1.trans hw2, e2.trans hss2, e3.trans hp2, e4.trans hn2, hpk⟩
  · rw [if_neg hb]
    by_cases hfit : R % 64 + s._width ≤ 64
    · -- the value fits into the rest of the current word
      rw [if_pos hfit]
      have hx : shl64 v (sub32 64 (R % 64 + s._width))
          = some ((v <<< (64 - (R % 64 + s._width))) % 2 ^ 64) := by
        rw [sub32_of_le (by omega) (by decide), shl64_of_lt (by omega)]
      rw [hx, Option.some_bind]
      obtain ⟨old, hold, holdlt⟩ := store_read hst2 (k := K) (j := R / 64) (by omega) (by omega)
      rw [hold, Option.some_bind]
      obtain ⟨segs1, hw, hl, hst, hrd⟩ := store_write hst2 (k := K) (j := R / 64)
        (x := old ||| (v <<< (64 - (R % 64 + s._width))) % 2 ^ 64) (by omega) (by omega)
        (Nat.or_lt_two_pow holdlt (Nat.mod_lt _ (by decide)))
      rw [hw, Option.some_bind]
      have hbits : ∀ vs, Packed s vs → v < 2 ^ s._width →
          Bits segs1 (s._segSize / 64) (expectedBit s._width (vs ++ [v])) (fun _ => True) := by
        intro vs hP hv
        have hcg1 := hcg vs hP
        have h1 := bits_write (c := g0)
          (hfar vs hP _ (fun g => g ≠ g0) (hb2 vs hP) (fun g hg => ⟨hg, by omega⟩))
          (by rw [hgd, hgm]; exact hrd)
          (bits_cur (v := v) (by omega) (hcg vs hP)
            (fun q hq => hb2 vs hP g0 old q trivial (by rw [hgd, hgm]; exact hold) hq)
            (fun q hq => bits_single hv (by omega) hq))
        exact bits_mono h1 (fun g _ => by by_cases h : g = g0 <;> simp [h]) (fun _ _ _ _ => rfl)
      have hA : divCeil (s._nBits + s._width) s._segSize = K + 1 := by
        rw [hA1, if_pos (by omega)]
      obtain ⟨d, t1, hd, hS1, hPk, e1, e2, e3, e4, -⟩ :=
        finish m (t := { s2 with _segments := segs1 })
          (shape_of hS hw2 hss2 hp2 (hl.trans hl2) (K + 1) (by rw [← hA]; congr 1) hst hlog2)
      have hpk : ∀ vs, Packed s vs → v < 2 ^ s._width → Packed t1 (vs ++ [v]) :=
        fun vs hP hv => hPk _ (packed_of hw2 hss2 (hn2.trans (hlen1 vs hP).symm)
        (hsmall vs hP hv) (hbits vs hP hv))
      exact ⟨d, t1, hd, hS1, e1.trans hw2, e2.trans hss2, e3.trans hp2, e4.trans hn2, hpk⟩
    · rw [if_neg hfit]
      have he : sub32 (R % 64 + s._width) 64 = R % 64 + s._width - 64 :=
        sub32_of_le (by omega) (by omega)
      have hhi : shr64 v (R % 64 + s._width - 64) = some (v >>> (R % 64 + s._width - 64)) :=
        shr64_of_lt (by omega)
      have hlo : shl64 v (sub32 64 (R % 64 + s._width - 64))
          = some ((v <<< (64 - (R % 64 + s._width - 64))) % 2 ^ 64) := by
        rw [sub32_of_le (by omega) (by decide), shl64_of_lt (by omega)]
      have hhilt : v >>> (R % 64 + s._width - 64) < 2 ^ 64 :=
        lt_of_le_of_lt (by rw [Nat.shiftRight_eq_div_pow]; exact Nat.div_le_self _ _) hv64
      by_cases hfit2 : R + s._width ≤ s._segSize
      · -- the value straddles two words of one segment
        rw [if_pos hfit2, if_neg (by omega)]
        simp only [he, Nat.add_zero]
        rw [hhi, Option.some_bind]
        obtain ⟨old, hold, holdlt⟩ := store_read hst2 (k := K) (j := R / 64) (by omega) (by omega)
        rw [hold, Option.some_bind]
        obtain ⟨segs1, hw, hl, hst, hrd⟩ := store_write hst2 (k := K) (j := R / 64)
          (x := old ||| v >>> (R % 64 + s._width - 64)) (by omega) (by omega)
          (Nat.or_lt_two_pow holdlt hhilt)
        rw [hw, Option.some_bind, hlo, Option.some_bind]
        obtain ⟨segs2, hw', hl', hst', hrd'⟩ := store_write hst (k := K) (j := R / 64 + 1)
          (x := (v <<< (64 - (R % 64 + s._width - 64))) % 2 ^ 64) (by omega) (by omega)
          (Nat.mod_lt _ (by decide))
        rw [hw', Option.some_bind]
        obtain ⟨hnd, hnm⟩ := flat_next_same (g := g0) (n := s._segSize / 64) (by omega)
        have hbits : ∀ vs, Packed s vs → v < 2 ^ s._width →
            Bits segs2 (s._segSize / 64) (expectedBit s._width (vs ++ [v])) (fun _ => True) := by
          intro vs hP hv
          have hcg1 := hcg vs hP
          have h1 := bits_write (c := g0)
            (hfar vs hP _ (fun g => g ≠ g0 ∧ g ≠ g0 + 1) (hb2 vs hP) (fun g hg => ⟨hg.1, Or.inl hg.2⟩))
            (by rw [hgd, hgm]; exact hrd)
            (bits_cur (v := v) (by omega) (hcg vs hP)
              (fun q hq => hb2 vs hP g0 old q trivial (by rw [hgd, hgm]; exact hold) hq)
              (fun q hq => bits_high hv (by omega) hq))
          have h2 := bits_write (c := g0 + 1) h1
            (by rw [hnd, hnm, hgd, hgm]; exact hrd')
            (bits_next (v := v) (by omega) (hcg vs hP) (by omega) (by omega)
              (fun q hq => bits_low (by omega) (by omega) hq))
          exact bits_mono h2
            (fun g _ => by by_cases h : g = g0 <;> by_cases h' : g = g0 + 1 <;> simp [h, h'])
            (fun _ _ _ _ => rfl)
        have hA : divCeil (s._nBits + s._width) s._segSize = K + 1 := by
          rw [hA1, if_pos (by omega)]
        obtain ⟨d, t1, hd, hS1, hPk, e1, e2, e3, e4, -⟩ :=
          finish m (t := { s2 with _segments := segs2 })
            (shape_of hS hw2 hss2 hp2 ((hl'.trans hl).trans hl2) (K + 1)
              (by rw [← hA]; congr 1) hst' hlog2)
        have hpk : ∀ vs, Packed s vs → v < 2 ^ s._width → Packed t1 (vs ++ [v]) :=
          fun vs hP hv => hPk _ (packed_of hw2 hss2 (hn2.trans (hlen1 vs hP).symm)
        (hsmall vs hP hv) (hbits vs hP hv))
        exact ⟨d, t1, hd, hS1, e1.trans hw2, e2.trans hss2, e3.trans hp2, e4.trans hn2, hpk⟩
      · -- the value straddles two segments
        rw [if_neg hfit2]
        simp only [he, Nat.add_zero]
        obtain ⟨hl3, -, -, hlog3, hn3, hw3, hss3, hp3, -⟩ := addSegment_spec s2 (K + 1) hl2
        have hst3 : Store (addSegment s2 (K + 1))._segments (s._segSize / 64) (K + 1 + 1) :=
          store_addSegment (s := s2) hst2 hl2 (by rw [hss2])
        have hb3 : ∀ vs, Packed s vs → Bits (addSegment s2 (K + 1))._segments (s._segSize / 64)
            (expectedBit s._width vs) (fun _ => True) := by
          intro vs hP
          apply bits_addSegment (hb2 vs hP) hl2
          intro g q hg hq
          apply expectedBit_of_le
          have := Nat.div_add_mod' g (s._segSize / 64)
          have := hcg vs hP
          rw [hg, Nat.add_mul] at *
          omega
        generalize addSegment s2 (K + 1) = s3 at *
        rw [hhi, Option.some_bind]
        obtain ⟨old, hold, holdlt⟩ := store_read hst3 (k := K) (j := R / 64) (by omega) (by omega)
        rw [hold, Option.some_bind]
        obtain ⟨segs1, hw, hl, hst, hrd⟩ := store_write hst3 (k := K) (j := R / 64)
          (x := old ||| v >>> (R % 64 + s._width - 64)) (by omega) (by omega)
          (Nat.or_lt_two_pow holdlt hhilt)
        rw [hw, Option.some_bind, hlo, Option.some_bind]
        obtain ⟨segs2, hw', hl', hst', hrd'⟩ := store_write hst (k := K + 1) (j := 0)
          (x := (v <<< (64 - (R % 64 + s._width - 64))) % 2 ^ 64) (by omega) (by omega)
          (Nat.mod_lt _ (by decide))
        rw [hw', Option.some_bind]
        obtain ⟨hnd, hnm⟩ := flat_next_cross (g := g0) (n := s._segSize / 64) (by omega)
        have hbits : ∀ vs, Packed s vs → v < 2 ^ s._width →
            Bits segs2 (s._segSize / 64) (expectedBit s._width (vs ++ [v])) (fun _ => True) := by
          intro vs hP hv
          have hcg1 := hcg vs hP
          have h1 := bits_write (c := g0)
            (hfar vs hP _ (fun g => g ≠ g0 ∧ g ≠ g0 + 1) (hb3 vs hP) (fun g hg => ⟨hg.1, Or.inl hg.2⟩))
            (by rw [hgd, hgm]; exact hrd)
            (bits_cur (v := v) (by omega) (hcg vs hP)
              (fun q hq => hb3 vs hP g0 old q trivial (by rw [hgd, hgm]; exact hold) hq)
              (fun q hq => bits_high hv (by omega) hq))
          have h2 := bits_write (c := g0 + 1) h1
            (by rw [hnd, hnm, hgd]; exact hrd')
            (bits_next (v := v) (by omega) (hcg vs hP) (by omega) (by omega)
              (fun q hq => bits_low (by omega) (by omega) hq))
          exact bits_mono h2
            (fun g _ => by by_cases h : g = g0 <;> by_cases h' : g = g0 + 1 <;> simp [h, h'])
            (fun _ _ _ _ => rfl)
        have hA : divCeil (s._nBits + s._width) s._segSize = K + 1 + 1 := by
          rw [hA1, if_neg (by omega)]
        obtain ⟨d, t1, hd, hS1, hPk, e1, e2, e3, e4, -⟩ :=
          finish m (t := { s3 with _segments := segs2 })
            (shape_of hS (hw3.trans hw2) (hss3.trans hss2) (hp3.trans hp2)
              ((hl'.trans hl).trans hl3) (K + 1 + 1)
              (by rw [← hA]; exact congrArg (fun c => divCeil c s._segSize) (hn3.trans hn2))
              hst' (by rw [hlog3, hlog2, ← List.range_succ]))
        have hpk : ∀ vs, Packed s vs → v < 2 ^ s._width → Packed t1 (vs ++ [v]) :=
          fun vs hP hv => hPk _ (packed_of (hw3.trans hw2) (hss3.trans hss2)
              ((hn3.trans hn2).trans (hlen1 vs hP).symm) (hsmall vs hP hv) (hbits vs hP hv))
        exact ⟨d, t1, hd, hS1, e1.trans (hw3.trans hw2), e2.trans (hss3.trans hss2),
          e3.trans (hp3.trans hp2), e4.trans (hn3.trans hn2), hpk⟩

/-- Extraction of a value that lies in one word. -/
theorem get_single {w v W b : Nat} (hv : v < 2 ^ W) (hbW : b + W ≤ 64)
    (hw : ∀ q, b ≤ q → q < b + W → w.testBit (63 - q) = v.testBit (b + W - 1 - q)) :
    (w >>> (64 - (b + W))) &&& uint64MASK W = v := by
  apply Nat.eq_of_testBit_eq
  intro j
  unfold uint64MASK
  rw [Nat.testBit_and, Nat.testBit_shiftRight, Nat.testBit_two_pow_sub_one]
  by_cases hj : j < W
  · have h1 : 64 - (b + W) + j = 63 - (b + W - 1 - j) := by omega
    have h2 : b + W - 1 - (b + W - 1 - j) = j := by omega
    rw [h1, hw (b + W - 1 - j) (by omega) (by omega), h2]
    simp [hj]
  · rw [testBit_of_lt_of_le hv (by omega)]
    simp [hj]

/-- Extraction of a value that straddles two words. -/
theorem get_double {w0 w1 v W b : Nat} (hv : v < 2 ^ W) (hb : b < 64) (hW : W ≤ 64)
    (hbW : 64 < b + W)
    (hw0 : ∀ q, b ≤ q → q < 64 → w0.testBit (63 - q) = v.testBit (b + W - 1 - q))
    (hw1 : ∀ q, q < b + W - 64 → w1.testBit (63 - q) = v.testBit (b + W - 64 - 1 - q)) :
    ((w0 &&& uint64MASK (W - (b + W - 64))) <<< (b + W - 64)) % 2 ^ 64
      ||| ((w1 >>> (64 - (b + W - 64))) &&& uint64MASK (b + W - 64)) = v := by
  apply Nat.eq_of_testBit_eq
  intro j
  unfold uint64MASK
  rw [Nat.testBit_or, Nat.testBit_and, Nat.testBit_shiftRight, Nat.testBit_two_pow_sub_one,
    Nat.testBit_mod_two_pow, Nat.testBit_shiftLeft, Nat.testBit_and,
    Nat.testBit_two_pow_sub_one]
  by_cases hj : j < b + W - 64
  · have h1 : 64 - (b + W - 64) + j = 63 - (b + W - 64 - 1 - j) := by omega
    have h2 : b + W - 64 - 1 - (b + W - 64 - 1 - j) = j := by omega
    have h3 : ¬ (j ≥ b + W - 64) := by omega
    rw [h1, hw1 (b + W - 64 - 1 - j) (by omega), h2]
    simp [hj, h3]
  · by_cases hjW : j < W
    · have h1 : j - (b + W - 64) = 63 - (b + W - 1 - j) := by omega
      have h2 : b + W - 1 - (b + W - 1 - j) = j := by omega
      have h3 : j ≥ b + W - 64 := by omega
      have h4 : j < 64 := by omega
      have h5 : 63 - (b + W - 1 - j) < W - (b + W - 64) := by omega
      rw [h1, hw0 (b + W - 1 - j) (by omega) (by omega), h2]
      simp [hj, h3, h4, h5]
    · have h5 : ¬ (j - (b + W - 64) < W - (b + W - 64)) := by omega
      rw [testBit_of_lt_of_le hv (by omega)]
      simp [hj, h5]

theorem init_spec (m : Machine) {W S : Nat} (hm : 0 < m.pageBits) (hW1 : 1 ≤ W) (hW2 : W ≤ 64)
    (hS1 : 0 < S) (hS2 : S % 64 = 0) :
    ∃ base s, initializeArray m W S = some (base, s) ∧ Shape s ∧ Packed s [] ∧
      s._width = W ∧ s._segSize = S ∧ s._bitsPerPage = m.pageBits ∧ s._nBits = 0 ∧
      s._segments = [] ∧ s._nBitsOldSize = base ∧ s._nBitsTrigger = 0 ∧
      usedSize m s = some base ∧ s._nReAlloc = 0 ∧ s._segAlloc = 0 := by
  unfold initializeArray
  rw [if_neg (by omega), if_neg (by omega)]
  simp only []
  obtain ⟨u, hu⟩ := usedSize_isSome m (s :=
    { _width := W, _bitsPerPage := m.pageBits, _nReAlloc := 0, _segSize := S, _segAlloc := 0,
      _segments := [], _nBits := 0, _nBitsTrigger := 0, _nBitsOldSize := 0, segLog := [] })
    hS1 hm
  rw [hu]
  have h0 : divCeil 0 S = 0 := by
    unfold divCeil
    exact Nat.div_eq_of_lt (by omega)
  refine ⟨u, _, rfl, ⟨hW1, hW2, hS1, hS2, hm, rfl, ?_, ?_⟩, ⟨by simp, by simp, ?_⟩, rfl, rfl, rfl,
    rfl, rfl, rfl, rfl, hu, rfl, rfl⟩
  · show Store [] (S / 64) (divCeil 0 S)
    rw [h0]
    refine ⟨?_, ?_, ?_⟩
    · intro k
      simp [allocated]
    · intro k j
      simp [readWord]
    · intro k j w h
      simp [readWord] at h
  · show [] = List.range (divCeil 0 S)
    rw [h0]
    rfl
  · intro g w q _ h
    simp [readWord] at h

theorem addAll_spec (m : Machine) : ∀ (ws : List Nat) {s : merylCountArray}, Shape s →
    (∀ v ∈ ws, v < 2 ^ 64) → s._nBits + ws.length * s._width < 2 ^ 64 →
    ∃ ds s1, addAll m s ws = some (ds, s1) ∧ Shape s1 ∧ s1._width = s._width ∧
      s1._segSize = s._segSize ∧ s1._bitsPerPage = s._bitsPerPage ∧
      s1._nBits = s._nBits + ws.length * s._width ∧ ds.length = ws.length ∧
      (∀ vs, Packed s vs → (∀ v ∈ ws, v < 2 ^ s._width) → Packed s1 (vs ++ ws)) := by
  intro ws
  induction ws with
  | nil =>
    intro s hS _ _
    exact ⟨[], s, rfl, hS, rfl, rfl, rfl, by simp, rfl, fun vs hP _ => by simpa using hP⟩
  | cons v ws ih =>
    intro s hS hv hc
    rw [List.length_cons, Nat.add_mul, Nat.one_mul] at hc
    have hW1 := hS.width_pos
    obtain ⟨d, s1, h1, hS1, e1, e2, e3, e4, hpk⟩ :=
      add_step m hS (hv v (List.mem_cons_self _ _)) (by omega)
    obtain ⟨ds, s2, h2, hS2, f1, f2, f3, f4, f5, hpk2⟩ :=
      ih hS1 (fun u hu => hv u (List.mem_cons_of_mem _ hu)) (by rw [e4, e1]; omega)
    refine ⟨d :: ds, s2, ?_, hS2, f1.trans e1, f2.trans e2, f3.trans e3, ?_, ?_, ?_⟩
    · simp only [addAll, h1, h2]
    · rw [f4, e4, e1, List.length_cons, Nat.add_mul, Nat.one_mul]
      omega
    · simp [f5]
    · intro vs hP hsm
      have := hpk2 (vs ++ [v]) (hpk vs hP (hsm v (List.mem_cons_self _ _)))
        (fun u hu => by rw [e1]; exact hsm u (List.mem_cons_of_mem _ hu))
      simpa using this

/-- A write phase on a fresh array succeeds and ends in a state with the layout invariant. -/
theorem written_spec (m : Machine) {W S : Nat} (vs : List Nat) (hm : 0 < m.pageBits)
    (hW1 : 1 ≤ W) (hW2 : W ≤ 64) (hS1 : 0 < S) (hS2 : S % 64 = 0)
    (hv : ∀ v ∈ vs, v < 2 ^ 64) (hfit : vs.length * W < 2 ^ 64) :
    ∃ ds s, written m W S vs = some (ds, s) ∧ Shape s ∧ s._width = W ∧ s._segSize = S ∧
      s._bitsPerPage = m.pageBits ∧ s._nBits = vs.length * W ∧ ds.length = vs.length ∧
      ((∀ v ∈ vs, v < 2 ^ W) → Packed s vs) := by
  obtain ⟨base, s0, h0, hS0, hP0, e1, e2, e3, e4, -⟩ := init_spec m hm hW1 hW2 hS1 hS2
  obtain ⟨ds, s, h1, hS, f1, f2, f3, f4, f5, hpk⟩ :=
    addAll_spec m vs hS0 hv (by rw [e4, e1]; omega)
  refine ⟨ds, s, ?_, hS, f1.trans e1, f2.trans e2, f3.trans e3, ?_, f5, ?_⟩
  · simp only [written, h0, h1]
  · rw [f4, e4, e1]
    omega
  · intro hsm
    have := hpk [] hP0 (by rw [e1]; exact hsm)
    simpa using this

theorem frame_grow {s t : merylCountArray} (h : Frame s t) (k : Nat) :
    Frame s (addSegment t k) := by
  obtain ⟨h1, h2, h3, h4, h5, h6, h7, h8⟩ := h
  unfold addSegment
  by_cases hg : t._segAlloc ≤ k
  · rw [if_pos hg]
    exact ⟨h1, h2, h3, h4, by show s._segAlloc ≤ k + 1; omega,
      by show s._nReAlloc ≤ t._nReAlloc + 1; omega, h7, h8⟩
  · rw [if_neg hg]
    exact ⟨h1, h2, h3, h4, h5, h6, h7, h8⟩

theorem frame_setSegments {s t : merylCountArray} (h : Frame s t)
    (segs : List (Option (List Nat))) : Frame s { t with _segments := segs } :=
  h

theorem frame_finish {m : Machine} {s t s1 : merylCountArray} {d : Nat} (h : Frame s t)
    (hd : usedSizeDelta m t = some (d, s1)) : AddEffect m s d s1 := by
  obtain ⟨h1, h2, h3, h4, h5, h6, h7, h8⟩ := h
  unfold usedSizeDelta at hd
  by_cases ht : t._nBits < t._nBitsTrigger
  · rw [if_pos ht] at hd
    simp only [Option.some.injEq, Prod.mk.injEq] at hd
    obtain ⟨rfl, rfl⟩ := hd
    exact ⟨h1, h2, h3, h4, h5, h6, Or.inl ⟨by rw [← h7]; exact ht, rfl, h7, h8⟩⟩
  · rw [if_neg ht] at hd
    cases hu : usedSize m t with
    | none => rw [hu] at hd; exact absurd hd (by simp)
    | some u =>
      rw [hu] at hd
      simp only [Option.some.injEq, Prod.mk.injEq] at hd
      obtain ⟨rfl, rfl⟩ := hd
      refine ⟨h1, h2, h3, h4, h5, h6, Or.inr ⟨by rw [← h7]; exact Nat.le_of_not_lt ht, u, hu, ?_,
        rfl, ?_⟩⟩
      · rw [h8]
      · show t._nBitsTrigger + t._bitsPerPage / 16 = _
        rw [h7, h3]

/-- Whatever the state, a successful `add` advances the cursor by the width, keeps the
parameters, and updates the estimator fields as `usedSizeDelta` prescribes. -/
theorem add_frame {m : Machine} {s s1 : merylCountArray} {v d : Nat}
    (h : add m s v = some (d, s1)) : AddEffect m s d s1 := by
  unfold add at h
  by_cases h0 : s._segSize = 0
  · rw [if_pos h0] at h
    exact absurd h (by simp)
  rw [if_neg h0] at h
  simp only [] at h
  have hf1 : Frame s { s with _nBits := (s._nBits + s._width) % 2 ^ 64 } :=
    ⟨rfl, rfl, rfl, rfl, le_refl _, le_refl _, rfl, rfl⟩
  have hf2 : Frame s (if s._nBits % s._segSize / 64 = 0 ∧ s._nBits % s._segSize % 64 = 0
      then addSegment { s with _nBits := (s._nBits + s._width) % 2 ^ 64 } (s._nBits / s._segSize)
      else { s with _nBits := (s._nBits + s._width) % 2 ^ 64 }) := by
    split
    · exact frame_grow hf1 _
    · exact hf1
  generalize (if s._nBits % s._segSize / 64 = 0 ∧ s._nBits % s._segSize % 64 = 0
      then addSegment { s with _nBits := (s._nBits + s._width) % 2 ^ 64 } (s._nBits / s._segSize)
      else { s with _nBits := (s._nBits + s._width) % 2 ^ 64 }) = s2 at h hf2
  split at h
  · simp only [Option.bind_eq_some] at h
    obtain ⟨x, -, segs, -, hd⟩ := h
    exact frame_finish (frame_setSegments hf2 segs) hd
  split at h
  · simp only [Option.bind_eq_some] at h
    obtain ⟨x, -, old, -, segs, -, hd⟩ := h
    exact frame_finish (frame_setSegments hf2 segs) hd
  split at h
  · split at h
    · exact absurd h (by simp)
    simp only [Option.bind_eq_some] at h
    obtain ⟨hi, -, old, -, segs1, -, lo, -, segs2, -, hd⟩ := h
    exact frame_finish (frame_setSegments hf2 segs2) hd
  · simp only [Option.bind_eq_some] at h
    obtain ⟨hi, -, old, -, segs1, -, lo, -, segs2, -, hd⟩ := h
    exact frame_finish (frame_setSegments (frame_grow hf2 _) segs2) hd

theorem divCeil_le_iff {c S : Nat} (hS : 0 < S) (k : Nat) : divCeil c S ≤ k ↔ c ≤ k * S := by
  have := lt_divCeil_iff (c := c) hS k
  omega

theorem le_divCeil_mul {c S : Nat} (hS : 0 < S) : c ≤ divCeil c S * S :=
  (divCeil_le_iff hS _).mp (le_refl _)

theorem divCeil_mono {a b S : Nat} (hS : 0 < S) (h : a ≤ b) : divCeil a S ≤ divCeil b S :=
  (divCeil_le_iff hS _).mpr (le_trans h (le_divCeil_mul hS))

theorem divCeil_add_le {a b S : Nat} (hS : 0 < S) :
    divCeil (a + b) S ≤ divCeil a S + divCeil b S := by
  rw [divCeil_le_iff hS, Nat.add_mul]
  exact Nat.add_le_add (le_divCeil_mul hS) (le_divCeil_mul hS)

/-- The page count of the data never drops when the cursor advances. -/
theorem pages_mono {S P n n1 : Nat} (hS : 0 < S) (hP : 0 < P) (h : n ≤ n1) :
    n / S * divCeil S P + divCeil (n % S + 64) P
      ≤ n1 / S * divCeil S P + divCeil (n1 % S + 64) P := by
  have hq : n / S ≤ n1 / S := Nat.div_le_div_right h
  have e := Nat.div_add_mod' n S
  have e1 := Nat.div_add_mod' n1 S
  have hr : n % S < S := Nat.mod_lt _ hS
  rcases Nat.eq_or_lt_of_le hq with heq | hlt
  · rw [← heq] at e1 ⊢
    have : divCeil (n % S + 64) P ≤ divCeil (n1 % S + 64) P := divCeil_mono hP (by omega)
    omega
  · have h1 : divCeil (n % S + 64) P ≤ divCeil S P + divCeil 64 P :=
      le_trans (divCeil_mono hP (by omega)) (divCeil_add_le hP)
    have h2 : divCeil 64 P ≤ divCeil (n1 % S + 64) P := divCeil_mono hP (by omega)
    have h3 : (n / S + 1) * divCeil S P ≤ n1 / S * divCeil S P := Nat.mul_le_mul_right _ hlt
    rw [Nat.add_mul, Nat.one_mul] at h3
    omega

/-- The value of `usedSize`, in the form of the specification. -/
theorem usedSize_eq (m : Machine) {s : merylCountArray} (hS : 0 < s._segSize)
    (hP : 0 < s._bitsPerPage) :
    usedSize m s = some (pagesFormula s * s._bitsPerPage / 8 + s._segAlloc * m.ptrBytes
      + m.objBytes) := by
  unfold usedSize pagesFormula
  rw [if_neg (by omega), divCeil_eq hP, divCeil_eq hP, Nat.mul_add]
  simp only [Nat.zero_add]

theorem usedSize_pos {m : Machine} {s : merylCountArray} {a : Nat}
    (h : usedSize m s = some a) : 0 < s._segSize ∧ 0 < s._bitsPerPage := by
  unfold usedSize at h
  by_cases h0 : s._segSize = 0 ∨ s._bitsPerPage = 0
  · rw [if_pos h0] at h
    exact absurd h (by simp)
  · omega

/-- The estimate of a state dominates that of any state with the same parameters, a
smaller cursor and a smaller index. -/
theorem usedSize_mono (m : Machine) {s t : merylCountArray} {a : Nat}
    (ha : usedSize m s = some a) (h1 : t._segSize = s._segSize)
    (h2 : t._bitsPerPage = s._bitsPerPage) (h3 : s._nBits ≤ t._nBits)
    (h4 : s._segAlloc ≤ t._segAlloc) (h5 : s._nReAlloc ≤ t._nReAlloc) :
    ∃ b, usedSize m t = some b ∧ a ≤ b := by
  obtain ⟨hS, hP⟩ := usedSize_pos ha
  rw [usedSize_eq m hS hP] at ha
  refine ⟨_, usedSize_eq m (by omega) (by omega), ?_⟩
  simp only [Option.some.injEq] at ha
  rw [← ha]
  have hp : pagesFormula s ≤ pagesFormula t := by
    unfold pagesFormula
    rw [h1, h2]
    have := pages_mono (S := s._segSize) (P := s._bitsPerPage) hS hP h3
    omega
  have h6 : pagesFormula s * s._bitsPerPage / 8 ≤ pagesFormula t * t._bitsPerPage / 8 := by
    rw [h2]
    exact Nat.div_le_div_right (Nat.mul_le_mul_right _ hp)
  have h7 : s._segAlloc * m.ptrBytes ≤ t._segAlloc * m.ptrBytes := Nat.mul_le_mul_right _ h4
  omega

theorem numAllocated_eq : ∀ (segs : List (Option (List Nat))) (A : Nat),
    (∀ k, allocated segs k = true ↔ k < A) → (segs.filter Option.isSome).length = A := by
  intro segs
  induction segs with
  | nil =>
    intro A h
    have := (h 0)
    simp [allocated] at this
    simp [this]
  | cons x xs ih =>
    intro A h
    have h0 := h 0
    cases x with
    | none =>
      simp [allocated] at h0
      subst h0
      have := ih 0 (fun k => by
        have := h (k + 1)
        simp [allocated] at this ⊢
        exact this)
      simpa using this
    | some buf =>
      simp [allocated] at h0
      have := ih (A - 1) (fun k => by
        have := h (k + 1)
        simp [allocated] at this ⊢
        rw [this]
        omega)
      simp [this]
      omega

/-- The estimate covers the bits written so far and one more word. -/
theorem usedSize_covers {m : Machine} {s : merylCountArray} {u : Nat}
    (hu : usedSize m s = some u) : (s._nBits + 64) / 8 ≤ u := by
  obtain ⟨hS, hP⟩ := usedSize_pos hu
  rw [usedSize_eq m hS hP] at hu
  simp only [Option.some.injEq] at hu
  have h1 : s._segSize ≤ divCeil s._segSize s._bitsPerPage * s._bitsPerPage := le_divCeil_mul hP
  have h2 : s._nBits % s._segSize + 64
      ≤ divCeil (s._nBits % s._segSize + 64) s._bitsPerPage * s._bitsPerPage :=
    le_divCeil_mul hP
  have h3 : s._nBits / s._segSize * s._segSize
      ≤ s._nBits / s._segSize * (divCeil s._segSize s._bitsPerPage * s._bitsPerPage) :=
    Nat.mul_le_mul_left _ h1
  have h4 := Nat.div_add_mod' s._nBits s._segSize
  have h5 : s._nBits + 64 ≤ pagesFormula s * s._bitsPerPage := by
    unfold pagesFormula
    rw [Nat.add_mul, Nat.add_mul, Nat.add_mul, Nat.mul_assoc]
    omega
  have h6 := Nat.div_le_div_right (c := 8) h5
  omega

theorem usedSize64_isSome (m : Machine) {s : merylCountArray} (h1 : 0 < s._segSize)
    (h2 : 0 < s._bitsPerPage) : ∃ u, usedSize64 m s = some u := by
  unfold usedSize64
  rw [if_neg (by omega)]
  exact ⟨_, rfl⟩

theorem usedSize64_pos {m : Machine} {s : merylCountArray} {a : Nat}
    (h : usedSize64 m s = some a) : 0 < s._segSize ∧ 0 < s._bitsPerPage := by
  unfold usedSize64 at h
  by_cases h0 : s._segSize = 0 ∨ s._bitsPerPage = 0
  · rw [if_pos h0] at h
    exact absurd h (by simp)
  · omega

theorem fits64_iff (m : Machine) (s : merylCountArray) :
    fits64 m s = true ↔ pagesFormula s * s._bitsPerPage < 2 ^ 64 ∧
      pagesFormula s * s._bitsPerPage / 8 + s._segAlloc * m.ptrBytes + m.objBytes < 2 ^ 64 := by
  unfold fits64
  exact decide_eq_true_iff

/-- The arithmetic of `usedSize` on 64-bit words: when the product and the final sum are
below `2^64`, none of the reductions modulo `2^64` changes a value. -/
theorem wrap_free (A B C N P Q O : Nat) (hP : 0 < P)
    (h1 : (A + B + C + 5 + N) * P < 2 ^ 64)
    (h2 : (A + B + C + 5 + N) * P / 8 + Q + O < 2 ^ 64) :
    ((((((A % 2 ^ 64 + B % 2 ^ 64) % 2 ^ 64 % 2 ^ 64 + C % 2 ^ 64) % 2 ^ 64 + 5) % 2 ^ 64 + N)
      % 2 ^ 64 * P % 2 ^ 64 / 8 + Q % 2 ^ 64) % 2 ^ 64 + O) % 2 ^ 64
      = (A + B + C + 5 + N) * P / 8 + Q + O := by
  have h3 : A + B + C + 5 + N ≤ (A + B + C + 5 + N) * P := Nat.le_mul_of_pos_right _ hP
  have e : ((((A % 2 ^ 64 + B % 2 ^ 64) % 2 ^ 64 % 2 ^ 64 + C % 2 ^ 64) % 2 ^ 64 + 5) % 2 ^ 64
      + N) % 2 ^ 64 = A + B + C + 5 + N := by
    omega
  rw [e, Nat.mod_eq_of_lt h1]
  omega

/-- Where the estimate fits 64 bits no operation of `usedSize` wraps: the 64-bit evaluation
and the evaluation in the naturals agree. -/
theorem usedSize64_eq {m : Machine} {s : merylCountArray} (h : fits64 m s = true) :
    usedSize64 m s = usedSize m s := by
  rw [fits64_iff] at h
  obtain ⟨h1, h2⟩ := h
  unfold usedSize64 usedSize
  by_cases h0 : s._segSize = 0 ∨ s._bitsPerPage = 0
  · rw [if_pos h0, if_pos h0]
  rw [if_neg h0, if_neg h0]
  have hS : 0 < s._segSize := by omega
  have hP : 0 < s._bitsPerPage := by omega
  unfold pagesFormula at h1 h2
  rw [divCeil_eq hP, divCeil_eq hP, Nat.mul_add] at h1 h2
  have h4 : s._nBits % s._segSize + 64
      ≤ divCeil (s._nBits % s._segSize + 64) s._bitsPerPage * s._bitsPerPage :=
    le_divCeil_mul hP
  rw [divCeil_eq hP] at h4
  have h5 : ((s._nBits % s._segSize + 64) / s._bitsPerPage
      + if (s._nBits % s._segSize + 64) % s._bitsPerPage = 0 then 0 else 1) * s._bitsPerPage
      ≤ (s._nBits / s._segSize * (s._segSize / s._bitsPerPage)
        + s._nBits / s._segSize * (if s._segSize % s._bitsPerPage = 0 then 0 else 1)
        + ((s._nBits % s._segSize + 64) / s._bitsPerPage
          + if (s._nBits % s._segSize + 64) % s._bitsPerPage = 0 then 0 else 1) + 5
        + s._nReAlloc) * s._bitsPerPage :=
    Nat.mul_le_mul_right _ (by omega)
  have h6 : s._nBits % s._segSize + 64 < 2 ^ 64 := by omega
  simp only [Nat.zero_add]
  rw [Nat.mod_eq_of_lt h6]
  exact congrArg some (wrap_free _ _ _ _ _ _ _ hP h1 h2)

/-- The page count of a state dominates that of any state with the same parameters, a
smaller cursor and a smaller re-allocation counter. -/
theorem pagesFormula_mono {s t : merylCountArray} (hS : 0 < s._segSize)
    (hP : 0 < s._bitsPerPage) (h1 : t._segSize = s._segSize)
    (h2 : t._bitsPerPage = s._bitsPerPage) (h3 : s._nBits ≤ t._nBits)
    (h5 : s._nReAlloc ≤ t._nReAlloc) : pagesFormula s ≤ pagesFormula t := by
  unfold pagesFormula
  rw [h1, h2]
  have := pages_mono (S := s._segSize) (P := s._bitsPerPage) hS hP h3
  omega

/-- An estimate that fits 64 bits also fits in every state with the same parameters, a
smaller cursor and a smaller index. -/
theorem fits64_mono (m : Machine) {s t : merylCountArray} (hS : 0 < s._segSize)
    (hP : 0 < s._bitsPerPage) (ht : fits64 m t = true) (h1 : t._segSize = s._segSize)
    (h2 : t._bitsPerPage = s._bitsPerPage) (h3 : s._nBits ≤ t._nBits)
    (h4 : s._segAlloc ≤ t._segAlloc) (h5 : s._nReAlloc ≤ t._nReAlloc) :
    fits64 m s = true := by
  rw [fits64_iff] at ht ⊢
  obtain ⟨a1, a2⟩ := ht
  have hp : pagesFormula s * s._bitsPerPage ≤ pagesFormula t * t._bitsPerPage := by
    rw [h2]
    exact Nat.mul_le_mul_right _ (pagesFormula_mono hS hP h1 h2 h3 h5)
  have h6 := Nat.div_le_div_right (c := 8) hp
  have h7 : s._segAlloc * m.ptrBytes ≤ t._segAlloc * m.ptrBytes := Nat.mul_le_mul_right _ h4
  omega

/-! ## The properties -/

/-- C3 (cursor accounting): every successful `add` advances `nBits` by exactly the width,
whatever branch stores the value, and after `n` calls on a fresh array of width `W` with
`n * W < 2^64` the cursor is `numBits = n * W`, so that `numBits / W = n`. -/
theorem C3_cursor_accounting (m : Machine) (W segSize : Nat) (vs : List Nat)
    (hm : 0 < m.pageBits) (hW1 : 1 ≤ W) (hW2 : W ≤ 64) (hS1 : 0 < segSize)
    (hS2 : segSize % 64 = 0) (hv : ∀ v ∈ vs, v < 2 ^ 64) (hfit : vs.length * W < 2 ^ 64) :
    (∀ s v d s1, add m s v = some (d, s1) → numBits s + s._width < 2 ^ 64 →
      numBits s1 = numBits s + s._width) ∧
    ∃ ds s, written m W segSize vs = some (ds, s) ∧ numBits s = vs.length * W ∧
      numBits s / W = vs.length := by
  constructor
  · intro s v d s1 h hlt
    obtain ⟨-, -, -, h4, -⟩ := add_frame h
    unfold numBits at *
    rw [h4, Nat.mod_eq_of_lt hlt]
  · obtain ⟨ds, s, h, hS, e1, e2, e3, e4, e5, hP⟩ :=
      written_spec m vs hm hW1 hW2 hS1 hS2 hv hfit
    refine ⟨ds, s, h, e4, ?_⟩
    unfold numBits
    rw [e4]
    exact Nat.mul_div_cancel _ (by omega)

theorem C3_cursor_accounting_witness :
    (∀ s v d s1, add lp64 s v = some (d, s1) → numBits s + s._width < 2 ^ 64 →
      numBits s1 = numBits s + s._width) ∧
    ∃ ds s, written lp64 40 64 [1, 2, 3] = some (ds, s) ∧ numBits s = [1, 2, 3].length * 40 ∧
      numBits s / 40 = [1, 2, 3].length :=
  C3_cursor_accounting lp64 40 64 [1, 2, 3] (by decide) (by decide) (by decide) (by decide)
    (by decide) (by decide) (by decide)

/-- C5 (monotonic footprint): in every state, a successful `add` (that does not wrap the
64-bit cursor) leaves `usedSize`, evaluated on 64-bit words as the C++ does, at least as
large as it was, also when the cursor crosses a segment boundary, provided the estimate
after the call fits 64 bits (so that the product `pagesUsed * _bitsPerPage` does not
wrap). -/
theorem C5_usedSize_monotone (m : Machine) (s : merylCountArray) (v d : Nat)
    (s1 : merylCountArray) (a : Nat) (ha : usedSize64 m s = some a)
    (hadd : add m s v = some (d, s1)) (hc : s._nBits + s._width < 2 ^ 64)
    (hfit : fits64 m s1 = true) :
    ∃ b, usedSize64 m s1 = some b ∧ a ≤ b := by
  obtain ⟨hS, hP⟩ := usedSize64_pos ha
  obtain ⟨-, e2, e3, e4, e5, e6, -⟩ := add_frame hadd
  rw [Nat.mod_eq_of_lt hc] at e4
  have hs : fits64 m s = true := fits64_mono m hS hP hfit e2 e3 (by omega) e5 e6
  rw [usedSize64_eq hs] at ha
  rw [usedSize64_eq hfit]
  exact usedSize_mono m ha e2 e3 (by omega) e5 e6

theorem C5_usedSize_monotone_witness :
    usedSize64 lp64 once40 = some 28776 ∧ add lp64 once40 2 = some (0, twice40) ∧
    fits64 lp64 twice40 = true ∧
    ∃ b, usedSize64 lp64 twice40 = some b ∧ 28776 ≤ b :=
  ⟨by decide, by decide, by decide,
    C5_usedSize_monotone lp64 once40 2 0 twice40 28776 (by decide) (by decide) (by decide)
      (by decide)⟩

/-- C7 (`usedSize` formula): in every state with a positive segment size and page size
whose estimate fits 64 bits, `usedSize`, evaluated on 64-bit words as the C++ does, is
`pages * bitsPerPage / 8 + segAlloc * (pointer size) + (object size)` with
`pages = floor(nBits / segSize) * ceil(segSize / bitsPerPage)
  + ceil((nBits mod segSize + 64) / bitsPerPage) + 5 + nReAlloc`. -/
theorem C7_usedSize_formula (m : Machine) (s : merylCountArray) (hS : 0 < s._segSize)
    (hP : 0 < s._bitsPerPage) (hfit : fits64 m s = true) :
    usedSize64 m s = some (pagesFormula s * s._bitsPerPage / 8 + s._segAlloc * m.ptrBytes
      + m.objBytes) ∧
    pagesFormula s = s._nBits / s._segSize * ((s._segSize + s._bitsPerPage - 1) / s._bitsPerPage)
      + (s._nBits % s._segSize + 64 + s._bitsPerPage - 1) / s._bitsPerPage + 5 + s._nReAlloc :=
  ⟨by rw [usedSize64_eq hfit]; exact usedSize_eq m hS hP, rfl⟩

theorem C7_usedSize_formula_witness :
    usedSize64 lp64 twice40 = some (pagesFormula twice40 * twice40._bitsPerPage / 8
      + twice40._segAlloc * lp64.ptrBytes + lp64.objBytes) ∧
    pagesFormula twice40 = twice40._nBits / twice40._segSize
        * ((twice40._segSize + twice40._bitsPerPage - 1) / twice40._bitsPerPage)
      + (twice40._nBits % twice40._segSize + 64 + twice40._bitsPerPage - 1)
        / twice40._bitsPerPage + 5 + twice40._nReAlloc :=
  C7_usedSize_formula lp64 twice40 (by decide) (by decide) (by decide)

/-- C10, as stated, fails: after one write into a 32768-byte segment on `lp64` one
segment is allocated, and `usedSize` is 28776 bytes; the estimate fits 64 bits, so no
operation wraps. -/
theorem C10_counterexample :
    (written lp64 64 262144 [0]).map
        (fun r => (usedSize64 lp64 r.2, fits64 lp64 r.2, numAllocated r.2 * r.2._segSize / 8))
      = some (some 28776, true, 32768) ∧
    28776 < 32768 := by
  decide!

/-- C10 (conservative estimate, amended): after a write phase on a fresh array, when the
estimate fits 64 bits, `usedSize`, evaluated on 64-bit words as the C++ does, is at least
the size in bytes of all allocated segment buffers but the last one, and at least the bytes
written so far plus one word; the unwritten tail of the last allocated buffer is not
covered. -/
theorem C10_covers_written (m : Machine) (W segSize : Nat) (vs : List Nat)
    (hm : 0 < m.pageBits) (hW1 : 1 ≤ W) (hW2 : W ≤ 64) (hS1 : 0 < segSize)
    (hS2 : segSize % 64 = 0) (hv : ∀ v ∈ vs, v < 2 ^ 64) (hfit : vs.length * W < 2 ^ 64) :
    ∃ ds s u, written m W segSize vs = some (ds, s) ∧ usedSize64 m s = some u ∧
      (fits64 m s = true →
        (numAllocated s - 1) * segSize / 8 ≤ u ∧ (numBits s + 64) / 8 ≤ u) := by
  obtain ⟨ds, s, h, hS, e1, e2, e3, e4, e5, -⟩ :=
    written_spec m vs hm hW1 hW2 hS1 hS2 hv hfit
  obtain ⟨u, hu⟩ := usedSize64_isSome m hS.seg_pos hS.page_pos
  refine ⟨ds, s, u, h, hu, fun hf => ?_⟩
  rw [usedSize64_eq hf] at hu
  have hc := usedSize_covers hu
  refine ⟨?_, hc⟩
  have hn : numAllocated s = divCeil s._nBits s._segSize :=
    numAllocated_eq _ _ hS.store.alloc
  have hlt : (numAllocated s - 1) * segSize ≤ s._nBits := by
    by_cases h0 : numAllocated s = 0
    · rw [h0]
      simp
    · have := (lt_divCeil_iff (c := s._nBits) hS.seg_pos (numAllocated s - 1)).mp
        (by rw [← hn]; omega)
      rw [e2] at this
      omega
  have := Nat.div_le_div_right (c := 8) hlt
  have h2 : s._nBits / 8 ≤ (s._nBits + 64) / 8 := Nat.div_le_div_right (by omega)
  omega

theorem C10_covers_written_witness :
    (written lp64 40 64 [1, 2, 3]).map (fun r => fits64 lp64 r.2) = some true ∧
    ∃ ds s u, written lp64 40 64 [1, 2, 3] = some (ds, s) ∧ usedSize64 lp64 s = some u ∧
      (fits64 lp64 s = true →
        (numAllocated s - 1) * 64 / 8 ≤ u ∧ (numBits s + 64) / 8 ≤ u) :=
  ⟨by decide,
    C10_covers_written lp64 40 64 [1, 2, 3] (by decide) (by decide) (by decide) (by decide)
      (by decide) (by decide) (by decide)⟩

/-! ## Further properties -/

/-- A left shift by `64 - W` of a 64-bit word only sees the `W` low bits of the value. -/
theorem shl64_mod_width (v W : Nat) (hW : W ≤ 64) :
    shl64 (v % 2 ^ W) (64 - W) = shl64 v (64 - W) := by
  unfold shl64
  by_cases h : 64 - W < 64
  · rw [if_pos h, if_pos h]
    have h64 : (2 : Nat) ^ 64 = 2 ^ W * 2 ^ (64 - W) := by
      rw [← Nat.pow_add]
      congr 1
      omega
    rw [Nat.shiftLeft_eq, Nat.shiftLeft_eq, h64, Nat.mul_mod_mul_right, Nat.mul_mod_mul_right,
      Nat.mod_mod]
  · rw [if_neg h, if_neg h]

/-- C13, as stated, fails: after `add(2)` with width 5, `add(32)` and `add(32 mod 2^5)`
leave different segments, and `get 0` returns 3 after the first and 2 after the second. -/
theorem C13_counterexample :
    (written lp64 5 128 [2]).map (fun r => r.2) = some once5 ∧
    32 % 2 ^ 5 = 0 ∧
    (add lp64 once5 32).map (fun r => (r.2._segments, get r.2 0))
      = some ([some [1729382256910270464, 0]], some 3) ∧
    (add lp64 once5 0).map (fun r => (r.2._segments, get r.2 0))
      = some ([some [1152921504606846976, 0]], some 2) := by
  decide

/-- C13 (writer masking, amended): `add` does not mask its argument.  When the value starts
a word (`wordBgn = 0`) the left shift by `64 - W` drops the bits at and above `2^W`, so
`add v` and `add (v mod 2^W)` return the same delta and leave the same state. -/
theorem C13_masking_at_word_start (m : Machine) (s : merylCountArray) (v : Nat)
    (hW : s._width ≤ 64) (hb : s._nBits % s._segSize % 64 = 0) :
    add m s (v % 2 ^ s._width) = add m s v := by
  have hs : sub32 64 (0 + s._width) = 64 - s._width := by
    rw [Nat.zero_add]
    exact sub32_of_le hW (by decide)
  unfold add
  by_cases h0 : s._segSize = 0
  · rw [if_pos h0, if_pos h0]
  · rw [if_neg h0, if_neg h0]
    simp only []
    rw [if_pos hb, if_pos hb, hb, hs, shl64_mod_width v s._width hW]

theorem C13_masking_at_word_start_witness :
    add lp64 fresh40 ((2 ^ 40 + 1) % 2 ^ fresh40._width) = add lp64 fresh40 (2 ^ 40 + 1) :=
  C13_masking_at_word_start lp64 fresh40 (2 ^ 40 + 1) (by decide) (by decide)

/-- C19 (shift amounts are well defined): for a width in `1..64`, whatever the segment size,
the cursor and the index, every shift amount `add` and `get` use in the branch taken is at most 63 and
every width `get` passes to `uint64MASK` lies in `1..64`. -/
theorem C19_shift_amounts (s : merylCountArray) (kk : Nat) (hW1 : 1 ≤ s._width)
    (hW2 : s._width ≤ 64) :
    (∀ k ∈ addShifts s, k ≤ 63) ∧ (∀ k ∈ getShifts s kk, k ≤ 63) ∧
    (∀ n ∈ getMaskWidths s kk, 1 ≤ n ∧ n ≤ 64) := by
  refine ⟨?_, ?_, ?_⟩
  · intro k hk
    unfold addShifts addBranch at hk
    simp only [] at hk
    have hlt : s._nBits % s._segSize % 64 < 64 := Nat.mod_lt _ (by decide)
    unfold sub32 at hk
    split_ifs at hk <;> simp only [List.mem_cons, List.mem_singleton, List.not_mem_nil,
      or_false] at hk <;> omega
  · intro k hk
    unfold getShifts getBranch at hk
    simp only [] at hk
    have hlt : kk * s._width % 2 ^ 64 % s._segSize % 64 < 64 := Nat.mod_lt _ (by decide)
    unfold sub32 at hk
    split_ifs at hk <;> simp only [List.mem_cons, List.mem_singleton, List.not_mem_nil,
      or_false] at hk <;> omega
  · intro n hn
    unfold getMaskWidths getBranch at hn
    simp only [] at hn
    have hlt : kk * s._width % 2 ^ 64 % s._segSize % 64 < 64 := Nat.mod_lt _ (by decide)
    unfold sub32 at hn
    split_ifs at hn <;> simp only [List.mem_cons, List.mem_singleton, List.not_mem_nil,
      or_false] at hn <;> omega

theorem C19_shift_amounts_witness :
    (∀ k ∈ addShifts once40, k ≤ 63) ∧ (∀ k ∈ getShifts once40 1, k ≤ 63) ∧
    (∀ n ∈ getMaskWidths once40 1, 1 ≤ n ∧ n ≤ 64) :=
  C19_shift_amounts once40 1 (by decide) (by decide)

theorem expectedBit_at_any {W : Nat} (vs : List Nat) (i : Nat) {t : Nat} (ht : t < W) :
    expectedBit W vs (i * W + t) = (vs.getD i 0).testBit (W - 1 - t) := by
  by_cases hi : i < vs.length
  · exact expectedBit_at vs hi ht
  · have h1 : vs.length * W ≤ i * W := Nat.mul_le_mul_right _ (by omega)
    rw [expectedBit_of_le vs (by omega), List.getD_eq_getElem?_getD,
      List.getElem?_eq_none (by omega)]
    simp

theorem getD_lt_two_pow {s : merylCountArray} {vs : List Nat} (hP : Packed s vs) (i : Nat) :
    vs.getD i 0 < 2 ^ s._width := by
  by_cases hi : i < vs.length
  · rw [List.getD_eq_getElem?_getD, List.getElem?_eq_getElem hi]
    exact hP.small _ (List.getElem_mem _)
  · rw [List.getD_eq_getElem?_getD, List.getElem?_eq_none (by omega)]
    exact Nat.two_pow_pos _

/-- A read whose bit range lies inside the allocated segments is defined, and it returns
the bits the packing convention puts there. -/
theorem get_read {s : merylCountArray} (hS : Shape s) {i : Nat}
    (hi64 : i * s._width < 2 ^ 64)
    (hr : i * s._width + s._width ≤ divCeil s._nBits s._segSize * s._segSize) :
    ∃ x, get s i = some x ∧ ∀ vs, Packed s vs → x = vs.getD i 0 := by
  have hW1 := hS.width_pos
  have hW2 := hS.width_le
  obtain ⟨hRlt, hceq, hKS, hSw, hgd, hgm, -, hA1⟩ :=
    cursor_facts (i * s._width) s._segSize s._width hS.seg_pos hS.seg_mul hW1 hW2
  have hst := hS.store
  unfold get
  rw [if_neg (by have := hS.seg_pos; omega)]
  simp only []
  rw [Nat.mod_eq_of_lt (a := i * s._width) (b := 2 ^ 64) hi64]
  generalize hA : divCeil s._nBits s._segSize = A at *
  generalize hK : i * s._width / s._segSize = K at *
  generalize hR : i * s._width % s._segSize = R at *
  generalize hg0 : K * (s._segSize / 64) + R / 64 = g0 at *
  have hcg : i * s._width = 64 * g0 + R % 64 := by omega
  have hKA : K < A := by
    by_contra hcon
    have : A * s._segSize ≤ K * s._segSize := Nat.mul_le_mul_right _ (by omega)
    omega
  obtain ⟨w0, hw0, -⟩ := store_read hst (k := K) (j := R / 64) hKA (by omega)
  -- bits of the word holding the first bit of the value
  have hbit0 : ∀ vs, Packed s vs → ∀ q, R % 64 ≤ q → q < 64 → q < R % 64 + s._width →
      w0.testBit (63 - q) = (vs.getD i 0).testBit (R % 64 + s._width - 1 - q) := by
    intro vs hP q h1 h2 h3
    rw [hP.bits g0 w0 q trivial (by rw [hgd, hgm]; exact hw0) h2]
    have : 64 * g0 + q = i * s._width + (q - R % 64) := by omega
    have e : s._width - 1 - (q - R % 64) = R % 64 + s._width - 1 - q := by omega
    rw [this, expectedBit_at_any vs i (by omega), e]
  by_cases hfit : R % 64 + s._width ≤ 64
  · rw [if_pos hfit, hw0, Option.some_bind, sub32_of_le (by omega) (by decide),
      shr64_of_lt (by omega), Option.some_bind]
    refine ⟨_, rfl, fun vs hP => ?_⟩
    exact get_single (getD_lt_two_pow hP i) hfit (fun q h1 h2 => hbit0 vs hP q h1 (by omega) h2)
  · rw [if_neg hfit]
    have he : sub32 (R % 64 + s._width) 64 = R % 64 + s._width - 64 :=
      sub32_of_le (by omega) (by omega)
    have hwe : sub32 s._width (R % 64 + s._width - 64) = s._width - (R % 64 + s._width - 64) :=
      sub32_of_le (by omega) (by omega)
    have h64e : sub32 64 (R % 64 + s._width - 64) = 64 - (R % 64 + s._width - 64) :=
      sub32_of_le (by omega) (by decide)
    -- bits of the following word
    have hbit1 : ∀ vs, Packed s vs → ∀ w1, readWord s._segments ((g0 + 1) / (s._segSize / 64))
        ((g0 + 1) % (s._segSize / 64)) = some w1 → ∀ q, q < R % 64 + s._width - 64 →
        w1.testBit (63 - q) = (vs.getD i 0).testBit (R % 64 + s._width - 64 - 1 - q) := by
      intro vs hP w1 hw1 q h1
      rw [hP.bits (g0 + 1) w1 q trivial hw1 (by omega)]
      have : 64 * (g0 + 1) + q = i * s._width + (64 - R % 64 + q) := by omega
      have e : s._width - 1 - (64 - R % 64 + q) = R % 64 + s._width - 64 - 1 - q := by omega
      rw [this, expectedBit_at_any vs i (by omega), e]
    by_cases hfit2 : R + s._width ≤ s._segSize
    · rw [if_pos hfit2, if_neg (by omega)]
      simp only [he, hwe, h64e, Nat.add_zero]
      obtain ⟨hnd, hnm⟩ := flat_next_same (g := g0) (n := s._segSize / 64) (by omega)
      obtain ⟨w1, hw1, -⟩ := store_read hst (k := K) (j := R / 64 + 1) hKA (by omega)
      rw [hw0, Option.some_bind, shl64_of_lt (by omega), Option.some_bind, hw1,
        Option.some_bind, shr64_of_lt (by omega), Option.some_bind]
      refine ⟨_, rfl, fun vs hP => ?_⟩
      exact get_double (getD_lt_two_pow hP i) (by omega) hW2 (by omega)
        (fun q h1 h2 => hbit0 vs hP q h1 h2 (by omega))
        (hbit1 vs hP w1 (by rw [hnd, hnm, hgd, hgm]; exact hw1))
    · rw [if_neg hfit2]
      simp only [he, hwe, h64e, Nat.add_zero]
      obtain ⟨hnd, hnm⟩ := flat_next_cross (g := g0) (n := s._segSize / 64) (by omega)
      have hKA1 : K + 1 < A := by
        by_contra hcon
        have : A * s._segSize ≤ (K + 1) * s._segSize := Nat.mul_le_mul_right _ (by omega)
        rw [Nat.add_mul] at this
        omega
      obtain ⟨w1, hw1, -⟩ := store_read hst (k := K + 1) (j := 0) hKA1 (by omega)
      rw [hw0, Option.some_bind, shl64_of_lt (by omega), Option.some_bind, hw1,
        Option.some_bind, shr64_of_lt (by omega), Option.some_bind]
      refine ⟨_, rfl, fun vs hP => ?_⟩
      exact get_double (getD_lt_two_pow hP i) (by omega) hW2 (by omega)
        (fun q h1 h2 => hbit0 vs hP q h1 h2 (by omega))
        (hbit1 vs hP w1 (by rw [hnd, hnm, hgd]; exact hw1))

/-- C12, as stated, fails: after one write of width 5 the only valid index is 0
(`nBits / W = 1`), and `get 1` returns the value 0 instead of reporting an error. -/
theorem C12_counterexample :
    (written lp64 5 128 [2]).map (fun r => r.2) = some once5 ∧
    once5._nBits / once5._width = 1 ∧ get once5 1 = some 0 := by
  decide

/-- C12 (out-of-range read, amended): `get` does no range check.  After a write phase, for
every index at or beyond `nBits / W` whose bit range still lies inside the allocated
segments, `get` returns the value 0, the zero bits found there. -/
theorem C12_no_range_check (m : Machine) (W segSize : Nat) (vs : List Nat)
    (hm : 0 < m.pageBits) (hW1 : 1 ≤ W) (hW2 : W ≤ 64) (hS1 : 0 < segSize)
    (hS2 : segSize % 64 = 0) (hv : ∀ v ∈ vs, v < 2 ^ W) (hfit : vs.length * W < 2 ^ 64) :
    ∃ ds s, written m W segSize vs = some (ds, s) ∧
      ∀ i, numBits s / W ≤ i → i * W + W ≤ numAllocated s * segSize → i * W < 2 ^ 64 →
        get s i = some 0 := by
  have hv64 : ∀ v ∈ vs, v < 2 ^ 64 := fun v h =>
    lt_of_lt_of_le (hv v h) (Nat.pow_le_pow_right (by decide) hW2)
  obtain ⟨ds, s, h, hS, e1, e2, e3, e4, e5, hP⟩ :=
    written_spec m vs hm hW1 hW2 hS1 hS2 hv64 hfit
  refine ⟨ds, s, h, ?_⟩
  intro i hi hr hi64
  have hn : numAllocated s = divCeil s._nBits s._segSize :=
    numAllocated_eq _ _ hS.store.alloc
  have hlen : vs.length ≤ i := by
    unfold numBits at hi
    rw [e4, Nat.mul_div_cancel _ (by omega : 0 < W)] at hi
    exact hi
  obtain ⟨x, hx, hval⟩ := get_read hS (i := i) (by rw [e1]; exact hi64)
    (by rw [← hn, e1, e2]; exact hr)
  rw [hx, hval vs (hP hv), List.getD_eq_getElem?_getD, List.getElem?_eq_none hlen]
  rfl

theorem C12_no_range_check_witness :
    ∃ ds s, written lp64 5 128 [2] = some (ds, s) ∧
      ∀ i, numBits s / 5 ≤ i → i * 5 + 5 ≤ numAllocated s * 128 → i * 5 < 2 ^ 64 →
        get s i = some 0 :=
  C12_no_range_check lp64 5 128 [2] (by decide) (by decide) (by decide) (by decide)
    (by decide) (by decide) (by decide)

end Meryl
